import Mathlib

/-!
Verification development for the CDFS archive tool (`CDFSManager.py`).

The program is shallowly embedded: byte strings are `List Nat` (each element a
byte value), files are records of directory/name/content bytes, and the pack,
unpack and verify operations are translated into executable Lean functions.
Python's `str` values are represented by their UTF-8 byte encodings; the ASCII
fragment of `str.upper` is modelled (path components of interest are ASCII,
and non-ASCII bytes are left unchanged, which matches `str.upper` on all
bytes that occur in the claims' scope).  Loops whose Python termination is by
index arithmetic are written with an explicit fuel argument that provably
exceeds the iteration count, so that every definition reduces by evaluation.
-/

namespace CDFS

set_option maxRecDepth 100000

/-- Byte strings: each element is one byte value (0..255). -/
abbrev Bytes := List Nat

/-- `CDFS_MAGIC` from the source (`0x43444653`). -/
def CDFS_MAGIC : Nat := 0x43444653

/-- `CDFS_VERSION` from the source. -/
def CDFS_VERSION : Nat := 1

/-- Python `str.upper` on one ASCII byte: `a..z` drop by 32, all other bytes
are unchanged.  Full `str.upper` applies the Unicode case map to the decoded
string (e.g. U+00E9 é becomes U+00C9 É, and U+00DF ß becomes the two-letter
SS), which this byte-level function does not model: it agrees with the
program only on ASCII input.  Every theorem whose inputs pass through
`str.upper` therefore carries an explicit all-bytes-ASCII (`≤ 127`)
hypothesis, restricting it to the domain on which this embedding and the
program coincide character for character. -/
def upperByte (b : Nat) : Nat := if 97 ≤ b ∧ b ≤ 122 then b - 32 else b

/-- `str.upper` of a decoded-and-re-encoded string, on the ASCII domain
(see `upperByte`): bytewise uppercasing. -/
def upperBytes (s : Bytes) : Bytes := s.map upperByte

/-- Is `b` a UTF-8 continuation byte (`0x80..0xBF`)? -/
def isCont (b : Nat) : Bool := decide (128 ≤ b) && decide (b ≤ 191)

/-- One step of the strict UTF-8 acceptor (the check performed by Python
`bytes.decode` with the default strict error handler, which rejects overlong
forms, surrogates and code points above U+10FFFF).  The state is
`(k, lo, hi)`: `k` continuation bytes are still expected, and the next one
must lie in `lo..hi` (after it, the range is the plain `128..191`).
`none` models the `UnicodeDecodeError`. -/
def utf8Step (k lo hi b : Nat) : Option (Nat × Nat × Nat) :=
  match k with
  | 0 =>
    if b ≤ 127 then some (0, 0, 0)
    else if 194 ≤ b ∧ b ≤ 223 then some (1, 128, 191)
    else if b = 224 then some (2, 160, 191)
    else if (225 ≤ b ∧ b ≤ 236) ∨ b = 238 ∨ b = 239 then some (2, 128, 191)
    else if b = 237 then some (2, 128, 159)
    else if b = 240 then some (3, 144, 191)
    else if 241 ≤ b ∧ b ≤ 243 then some (3, 128, 191)
    else if b = 244 then some (3, 128, 143)
    else none
  | k2 + 1 => if lo ≤ b ∧ b ≤ hi then some (k2, 128, 191) else none

/-- Run the UTF-8 acceptor; a string is accepted when it ends with no
continuation byte outstanding. -/
def utf8Run : Nat → Nat → Nat → Bytes → Bool
  | k, _, _, [] => decide (k = 0)
  | k, lo, hi, b :: rest =>
    match utf8Step k lo hi b with
    | none => false
    | some (k2, lo2, hi2) => utf8Run k2 lo2 hi2 rest

/-- Strict UTF-8 validity of a byte string (Python `bytes.decode('utf-8')`
succeeds exactly on these). -/
def utf8Valid (s : Bytes) : Bool := utf8Run 0 0 0 s

/-- `unpack_string_from_table` (`CDFSManager.py` lines 28-32): scan forward
from `offset` to the next null byte (or the end of the table) and decode the
scanned bytes as UTF-8.  `none` models the `UnicodeDecodeError` raised by
`bytes.decode`; an offset at or past the end of the table yields the empty
slice, exactly as a Python slice does. -/
def scanToNull (t : Bytes) (off : Nat) : Bytes := (t.drop off).takeWhile (fun b => b != 0)

/-- The decoded result of `unpack_string_from_table`; `none` is a raised
`UnicodeDecodeError`. -/
def unpack_string_from_table (t : Bytes) (off : Nat) : Option Bytes :=
  if utf8Valid (scanToNull t off) then some (scanToNull t off) else none

/-! ### Basic byte-lemmas -/

theorem upperByte_zero_iff (b : Nat) : upperByte b = 0 ↔ b = 0 := by
  unfold upperByte
  split <;> omega

theorem upperByte_of_high (b : Nat) (h : 128 ≤ b) : upperByte b = b := by
  unfold upperByte
  split <;> omega

theorem upperByte_le_127 (b : Nat) (h : b ≤ 127) : upperByte b ≤ 127 := by
  unfold upperByte
  split <;> omega

theorem zero_not_mem_upperBytes (s : Bytes) (h : 0 ∉ s) : 0 ∉ upperBytes s := by
  intro hmem
  rcases List.mem_map.mp hmem with ⟨b, hb, hub⟩
  exact h (((upperByte_zero_iff b).mp hub) ▸ hb)

theorem isCont_upperByte (b : Nat) : isCont (upperByte b) = isCont b := by
  rcases Nat.lt_or_ge b 128 with h | h
  · have h1 : upperByte b ≤ 127 := upperByte_le_127 b (by omega)
    unfold isCont
    have : ¬ (128 ≤ upperByte b) := by omega
    simp [this]
    omega
  · rw [upperByte_of_high b h]

/-- Ranged byte tests used inside the UTF-8 validator are unchanged by
`upperByte` provided the lower bound is at least 128. -/
theorem upperByte_high_range (lo hi b : Nat) (hlo : 128 ≤ lo) :
    (decide (lo ≤ upperByte b) && decide (upperByte b ≤ hi))
      = (decide (lo ≤ b) && decide (b ≤ hi)) := by
  rcases Nat.lt_or_ge b 128 with h | h
  · have h1 : upperByte b ≤ 127 := upperByte_le_127 b (by omega)
    have h2 : ¬ (lo ≤ upperByte b) := by omega
    have h3 : ¬ (lo ≤ b) := by omega
    simp [h2, h3]
  · rw [upperByte_of_high b h]

theorem upperByte_le_127_iff (b : Nat) : upperByte b ≤ 127 ↔ b ≤ 127 := by
  unfold upperByte
  split <;> omega

/-- In any acceptor state with a high continuation range (all states the
acceptor can actually be in), a step on `upperByte b` equals a step on `b`:
`upperByte` fixes every byte at or above 128 and keeps ASCII bytes ASCII. -/
theorem utf8Step_upperByte (k lo hi b : Nat) (h : k = 0 ∨ 128 ≤ lo) :
    utf8Step k lo hi (upperByte b) = utf8Step k lo hi b := by
  rcases Nat.lt_or_ge b 128 with hb | hb
  · have hub : upperByte b ≤ 127 := upperByte_le_127 b (by omega)
    match k with
    | 0 =>
      rw [utf8Step, utf8Step, if_pos hub, if_pos (show b ≤ 127 by omega)]
    | k2 + 1 =>
      have hlo : 128 ≤ lo := by omega
      rw [utf8Step, utf8Step,
        if_neg (show ¬ (lo ≤ upperByte b ∧ upperByte b ≤ hi) by omega),
        if_neg (show ¬ (lo ≤ b ∧ b ≤ hi) by omega)]
  · rw [upperByte_of_high b hb]

/-- Every state reachable by a step of the UTF-8 acceptor again has a high
continuation range. -/
theorem utf8Step_stateOK (k lo hi b k2 lo2 hi2 : Nat)
    (h : utf8Step k lo hi b = some (k2, lo2, hi2)) : k2 = 0 ∨ 128 ≤ lo2 := by
  match k with
  | 0 =>
    rw [utf8Step] at h
    split_ifs at h <;>
      (simp only [Option.some.injEq, Prod.mk.injEq, reduceCtorEq] at h; omega)
  | k3 + 1 =>
    rw [utf8Step] at h
    split_ifs at h <;>
      (simp only [Option.some.injEq, Prod.mk.injEq, reduceCtorEq] at h; omega)

theorem utf8Run_upperBytes (s : Bytes) : ∀ k lo hi : Nat, (k = 0 ∨ 128 ≤ lo) →
    utf8Run k lo hi (upperBytes s) = utf8Run k lo hi s := by
  induction s with
  | nil => intro k lo hi _; rfl
  | cons b rest ih =>
    intro k lo hi h
    have hcons : upperBytes (b :: rest) = upperByte b :: upperBytes rest := rfl
    rw [hcons, utf8Run, utf8Run, utf8Step_upperByte k lo hi b h]
    cases hstep : utf8Step k lo hi b with
    | none => rfl
    | some st2 =>
      obtain ⟨k2, lo2, hi2⟩ := st2
      exact ih k2 lo2 hi2 (utf8Step_stateOK k lo hi b k2 lo2 hi2 hstep)

/-- ASCII upper-casing preserves strict UTF-8 validity. -/
theorem utf8Valid_upperBytes (s : Bytes) : utf8Valid (upperBytes s) = utf8Valid s :=
  utf8Run_upperBytes s 0 0 0 (Or.inl rfl)

/-- Every all-ASCII byte string is valid UTF-8. -/
theorem utf8Valid_of_ascii (s : Bytes) (h : ∀ b ∈ s, b ≤ 127) : utf8Valid s = true := by
  unfold utf8Valid
  induction s with
  | nil => rfl
  | cons b rest ih =>
    have hb : b ≤ 127 := h b (List.mem_cons_self b rest)
    have hstep : utf8Step 0 0 0 b = some (0, 0, 0) := by
      rw [utf8Step, if_pos hb]
    rw [utf8Run, hstep]
    exact ih (fun b2 h2 => h b2 (List.mem_cons_of_mem b h2))

/-- Bytewise uppercasing keeps an all-ASCII string all-ASCII. -/
theorem upperBytes_ascii (s : Bytes) (h : ∀ b ∈ s, b ≤ 127) :
    ∀ b ∈ upperBytes s, b ≤ 127 := by
  intro b hb
  rcases List.mem_map.mp hb with ⟨c, hc, hcb⟩
  subst hcb
  exact upperByte_le_127 c (h c hc)

/-! ### A byte-array model of random-access file I/O -/

/-- `n` zero bytes. -/
def zeros (n : Nat) : Bytes := List.replicate n 0

/-- `f.seek(off); f.write(d)` on a file whose current content is `a`:
bytes `off .. off+|d|` are replaced by `d`, any gap beyond the current end
of file reads as zero bytes, and the rest is unchanged. -/
def writeAt (a : Bytes) (off : Nat) (d : Bytes) : Bytes :=
  a.take off ++ zeros (off - a.length) ++ d ++ a.drop (off + d.length)

/-- `f.seek(off); f.read(n)` on a file whose content is `a` (returns fewer
than `n` bytes at end of file, as POSIX reads do). -/
def readAt (a : Bytes) (off n : Nat) : Bytes := (a.drop off).take n

theorem writeAt_eq_of_le (a : Bytes) (off : Nat) (d : Bytes) (h : off ≤ a.length) :
    writeAt a off d = a.take off ++ d ++ a.drop (off + d.length) := by
  unfold writeAt zeros
  rw [Nat.sub_eq_zero_of_le h]
  simp

theorem length_writeAt (a : Bytes) (off : Nat) (d : Bytes) (h : off + d.length ≤ a.length) :
    (writeAt a off d).length = a.length := by
  rw [writeAt_eq_of_le a off d (by omega)]
  simp
  omega

theorem readAt_writeAt_self (a : Bytes) (off : Nat) (d : Bytes)
    (h : off + d.length ≤ a.length) :
    readAt (writeAt a off d) off d.length = d := by
  rw [writeAt_eq_of_le a off d (by omega)]
  unfold readAt
  have h1 : (a.take off).length = off := by simp; omega
  rw [List.append_assoc, List.drop_append_eq_append_drop, h1, Nat.sub_self, List.drop_zero,
    List.drop_of_length_le (show (a.take off).length ≤ off by simp),
    List.nil_append, List.take_append_eq_append_take, List.take_length, Nat.sub_self,
    List.take_zero, List.append_nil]

theorem readAt_writeAt_before (a : Bytes) (o1 n1 o2 : Nat) (d : Bytes)
    (hw : o2 + d.length ≤ a.length) (hd : o1 + n1 ≤ o2) :
    readAt (writeAt a o2 d) o1 n1 = readAt a o1 n1 := by
  rw [writeAt_eq_of_le a o2 d (by omega)]
  unfold readAt
  have h1 : (a.take o2).length = o2 := by simp; omega
  rw [List.append_assoc, List.drop_append_eq_append_drop, h1,
    Nat.sub_eq_zero_of_le (show o1 ≤ o2 by omega), List.drop_zero,
    List.take_append_eq_append_take]
  have h2 : (List.drop o1 (a.take o2)).length = o2 - o1 := by simp; omega
  rw [h2, Nat.sub_eq_zero_of_le (show n1 ≤ o2 - o1 by omega), List.take_zero,
    List.append_nil, List.drop_take, List.take_take]
  congr 1
  omega

theorem readAt_writeAt_after (a : Bytes) (o1 n1 o2 : Nat) (d : Bytes)
    (hw : o2 + d.length ≤ a.length) (hd : o2 + d.length ≤ o1) :
    readAt (writeAt a o2 d) o1 n1 = readAt a o1 n1 := by
  rw [writeAt_eq_of_le a o2 d (by omega)]
  unfold readAt
  have h1 : (a.take o2 ++ d).length = o2 + d.length := by simp; omega
  rw [List.append_assoc, ← List.append_assoc (a.take o2) d,
    List.drop_append_eq_append_drop, h1,
    List.drop_of_length_le (show (a.take o2 ++ d).length ≤ o1 by rw [h1]; omega),
    List.nil_append, List.drop_drop]
  congr 2
  omega

/-- Pointwise description of an in-bounds `writeAt`: inside the written
range the byte comes from `d`, elsewhere from `a`. -/
theorem getElem?_writeAt (a : Bytes) (off : Nat) (d : Bytes)
    (h : off + d.length ≤ a.length) (i : Nat) :
    (writeAt a off d)[i]? = if off ≤ i ∧ i < off + d.length then d[i - off]? else a[i]? := by
  rw [writeAt_eq_of_le a off d (by omega)]
  have htl : (a.take off).length = off := by simp; omega
  have hXl : (a.take off ++ d).length = off + d.length := by simp; omega
  rcases Nat.lt_or_ge i off with hi | hi
  · rw [List.getElem?_append_left (by rw [hXl]; omega),
      List.getElem?_append_left (by rw [htl]; omega),
      List.getElem?_take_of_lt hi, if_neg (by omega)]
  rcases Nat.lt_or_ge i (off + d.length) with hi2 | hi2
  · rw [List.getElem?_append_left (by rw [hXl]; omega),
      List.getElem?_append_right (by rw [htl]; omega), htl, if_pos (by omega)]
  · rw [List.getElem?_append_right (by rw [hXl]; omega), hXl, List.getElem?_drop,
      if_neg (by omega)]
    congr 1
    omega

/-- Two in-bounds writes to disjoint byte ranges of the same file commute:
this is why the concurrent payload writers of `pack_cdfs` are safe without a
lock and why the archive does not depend on their completion order. -/
theorem writeAt_comm (a : Bytes) (o1 o2 : Nat) (d1 d2 : Bytes)
    (h1 : o1 + d1.length ≤ a.length) (h2 : o2 + d2.length ≤ a.length)
    (hd : o1 + d1.length ≤ o2 ∨ o2 + d2.length ≤ o1) :
    writeAt (writeAt a o1 d1) o2 d2 = writeAt (writeAt a o2 d2) o1 d1 := by
  have e1 : (writeAt a o1 d1).length = a.length := length_writeAt a o1 d1 h1
  have e2 : (writeAt a o2 d2).length = a.length := length_writeAt a o2 d2 h2
  apply List.ext_getElem?
  intro i
  rw [getElem?_writeAt (writeAt a o1 d1) o2 d2 (by omega) i,
    getElem?_writeAt (writeAt a o2 d2) o1 d1 (by omega) i,
    getElem?_writeAt a o1 d1 h1 i, getElem?_writeAt a o2 d2 h2 i]
  split_ifs <;> first | rfl | omega

/-! ### Little-endian u32 codec (`struct.pack`/`struct.unpack` format `<I`).
`struct.pack` raises for values at or above `2^32`; all theorems that rely on
the codec therefore carry explicit `< 2^32` bounds. -/

/-- The 4 little-endian bytes of `n` (for `n < 2^32` this is `struct.pack` of
format `<I`). -/
def encodeU32 (n : Nat) : Bytes := [n % 256, n / 256 % 256, n / 65536 % 256, n / 16777216 % 256]

/-- Read one byte of a file (indexes used by the codecs are always in range;
the 0 default never materialises in the verified reads). -/
def byteAt (a : Bytes) (i : Nat) : Nat := (a[i]?).getD 0

/-- Decode the little-endian u32 at offset `o` (format `<I` of
`struct.unpack`). -/
def readU32 (a : Bytes) (o : Nat) : Nat :=
  byteAt a o + 256 * byteAt a (o + 1) + 65536 * byteAt a (o + 2) + 16777216 * byteAt a (o + 3)

/-- `struct.pack` concatenated over a list of u32 fields (formats such as
`<IIIIIIIIII` and `<IIII` in the source). -/
def encodeU32List : List Nat → Bytes
  | [] => []
  | n :: rest => encodeU32 n ++ encodeU32List rest

theorem length_encodeU32 (n : Nat) : (encodeU32 n).length = 4 := rfl

theorem length_encodeU32List (ns : List Nat) : (encodeU32List ns).length = 4 * ns.length := by
  induction ns with
  | nil => rfl
  | cons n rest ih =>
    show (encodeU32 n ++ encodeU32List rest).length = 4 * (rest.length + 1)
    rw [List.length_append, length_encodeU32, ih]
    omega

theorem byteAt_append_right (x y : Bytes) (k : Nat) :
    byteAt (x ++ y) (x.length + k) = byteAt y k := by
  unfold byteAt
  rw [List.getElem?_append_right (by omega)]
  congr 2
  omega

theorem byteAt_cons_zero (b : Nat) (l : Bytes) : byteAt (b :: l) 0 = b := by
  simp [byteAt]

theorem byteAt_cons_succ (b : Nat) (l : Bytes) (k : Nat) : byteAt (b :: l) (k + 1) = byteAt l k := by
  simp [byteAt]

theorem readU32_encodeU32 (x y : Bytes) (n : Nat) :
    readU32 (x ++ (encodeU32 n ++ y)) x.length = n % 4294967296 := by
  unfold readU32
  have h0 : byteAt (x ++ (encodeU32 n ++ y)) (x.length + 0) = byteAt (encodeU32 n ++ y) 0 :=
    byteAt_append_right x _ 0
  have h1 := byteAt_append_right x (encodeU32 n ++ y) 1
  have h2 := byteAt_append_right x (encodeU32 n ++ y) 2
  have h3 := byteAt_append_right x (encodeU32 n ++ y) 3
  rw [Nat.add_zero] at h0
  rw [h0, h1, h2, h3]
  simp only [encodeU32, List.cons_append, List.nil_append, byteAt_cons_zero, byteAt_cons_succ]
  omega

theorem readU32_encodeU32List (ns : List Nat) :
    ∀ (P R : Bytes) (i : Nat), i < ns.length →
      readU32 (P ++ (encodeU32List ns ++ R)) (P.length + 4 * i)
        = ns.getD i 0 % 4294967296 := by
  induction ns with
  | nil => intro P R i hi; simp at hi
  | cons n rest ih =>
    intro P R i hi
    match i with
    | 0 =>
      have hsplit : encodeU32List (n :: rest) ++ R = encodeU32 n ++ (encodeU32List rest ++ R) := by
        show (encodeU32 n ++ encodeU32List rest) ++ R = _
        rw [List.append_assoc]
      rw [hsplit, Nat.mul_zero, Nat.add_zero, readU32_encodeU32]
      rfl
    | i2 + 1 =>
      have hsplit : P ++ (encodeU32List (n :: rest) ++ R)
          = (P ++ encodeU32 n) ++ (encodeU32List rest ++ R) := by
        show P ++ ((encodeU32 n ++ encodeU32List rest) ++ R) = _
        simp [List.append_assoc]
      have hlen : (P ++ encodeU32 n).length = P.length + 4 := by
        rw [List.length_append, length_encodeU32]
      have step := ih (P ++ encodeU32 n) R i2 (by simpa using Nat.lt_of_succ_lt_succ hi)
      rw [hlen] at step
      have harith : P.length + 4 * (i2 + 1) = P.length + 4 + 4 * i2 := by omega
      rw [hsplit, harith]
      simpa using step

/-! ### The string table: `add_string_to_table` and its dedup scan -/

/-- `len(string_table[index:].split(b'\0', 1)[0])` from source line 149: the
number of bytes from `index` up to (excluding) the next null byte. -/
def distNull (t : Bytes) (index : Nat) : Nat := (scanToNull t index).length

/-- The dedup scan of `add_string_to_table` (source lines 143-149).  The
loop advances `index` by at least one byte per iteration and stops once
`index < len(table) - len(value)` fails, so `t.length + 1` rounds of fuel
(supplied by `scanFrom`) always run it to completion.  Lines 144-146 measure
the sought value with `len(string_value)` — the `str` character count — in
the guard, the slice and the null-byte index; `v` here is the encoded value
and `v.length` its byte count, which equals the character count exactly on
the ASCII domain to which the theorems that run this scan are restricted. -/
def scanLoop (t v : Bytes) : Nat → Nat → Option Nat
  | 0, _ => none
  | fuel + 1, index =>
    if index < t.length - v.length then
      if (t.drop index).take v.length = v ∧ byteAt t (index + v.length) = 0 then some index
      else scanLoop t v fuel (index + distNull t index + 1)
    else none

/-- The dedup scan starting at `index` (the source always starts at 0). -/
def scanFrom (t v : Bytes) (index : Nat) : Option Nat := scanLoop t v (t.length + 1) index

/-- The in-memory string-table state during a pack run: the table bytes plus
the session cache (`string_cache`, a Python dict here modelled as an
association list in which the most recent binding wins). -/
structure InternState where
  table : Bytes
  cache : List (Bytes × Nat)

/-- Python dict membership/indexing for the session cache. -/
def cacheLookup : List (Bytes × Nat) → Bytes → Option Nat
  | [], _ => none
  | (k, o) :: rest, v => if k = v then some o else cacheLookup rest v

/-- `add_string_to_table` (source lines 137-154): upper-case the value,
consult the session cache, otherwise run the dedup scan over the table, and
finally append the encoded bytes plus a terminating null at the end. -/
def add_string_to_table (st : InternState) (value : Bytes) : Nat × InternState :=
  match cacheLookup st.cache (upperBytes value) with
  | some off => (off, st)
  | none =>
    match scanFrom st.table (upperBytes value) 0 with
    | some idx => (idx, ⟨st.table, (upperBytes value, idx) :: st.cache⟩)
    | none =>
      (st.table.length,
        ⟨st.table ++ upperBytes value ++ [0], (upperBytes value, st.table.length) :: st.cache⟩)

/-- The string table a pack run starts from: `bytearray(b'\0')`, i.e. one
pre-seeded empty entry, with an empty session cache. -/
def initInternState : InternState := ⟨[0], []⟩

/-- The byte blob laid down by a list of null-terminated entries. -/
def tableOfEntries : List Bytes → Bytes
  | [] => []
  | e :: rest => e ++ 0 :: tableOfEntries rest

/-- Starting byte offset of the first entry equal to `v`. -/
def entryOffset : List Bytes → Bytes → Option Nat
  | [], _ => none
  | e :: rest, v => if e = v then some 0 else (entryOffset rest v).map (· + (e.length + 1))

/-- The entry list after interning `v`: unchanged when present, appended
otherwise. -/
def internEntries (es : List Bytes) (v : Bytes) : List Bytes :=
  if v ∈ es then es else es ++ [v]

/-- The structural invariant of the string table during a pack run: the blob
is a null-terminated entry list, entries are null-free and pairwise distinct,
and every cache binding points at the entry holding its key. -/
structure TableInv (st : InternState) (es : List Bytes) : Prop where
  htable : st.table = tableOfEntries es
  hnull : ∀ e ∈ es, 0 ∉ e
  hnodup : es.Nodup
  hcache : ∀ v off, cacheLookup st.cache v = some off → entryOffset es v = some off

theorem entryOffset_cons (e : Bytes) (rest : List Bytes) (v : Bytes) :
    entryOffset (e :: rest) v
      = if e = v then some 0 else (entryOffset rest v).map (· + (e.length + 1)) := rfl

theorem tableOfEntries_append (es1 es2 : List Bytes) :
    tableOfEntries (es1 ++ es2) = tableOfEntries es1 ++ tableOfEntries es2 := by
  induction es1 with
  | nil => rfl
  | cons e rest ih =>
    show e ++ 0 :: tableOfEntries (rest ++ es2) = (e ++ 0 :: tableOfEntries rest) ++ tableOfEntries es2
    rw [ih]
    simp

theorem length_tableOfEntries_cons (e : Bytes) (rest : List Bytes) :
    (tableOfEntries (e :: rest)).length = e.length + 1 + (tableOfEntries rest).length := by
  show (e ++ 0 :: tableOfEntries rest).length = _
  simp
  omega

theorem length_le_tableOfEntries (es : List Bytes) (e : Bytes) (h : e ∈ es) :
    e.length + 1 ≤ (tableOfEntries es).length := by
  induction es with
  | nil => cases h
  | cons e1 rest ih =>
    rw [length_tableOfEntries_cons]
    rcases List.mem_cons.mp h with h1 | h1
    · subst h1; omega
    · have := ih h1; omega

theorem entries_length_le_tableOfEntries (es : List Bytes) :
    es.length ≤ (tableOfEntries es).length := by
  induction es with
  | nil => simp
  | cons e rest ih => rw [List.length_cons, length_tableOfEntries_cons]; omega

theorem entryOffset_mem (es : List Bytes) (v : Bytes) (off : Nat)
    (h : entryOffset es v = some off) : v ∈ es := by
  induction es generalizing off with
  | nil => cases h
  | cons e rest ih =>
    unfold entryOffset at h
    split_ifs at h with he
    · exact he ▸ List.mem_cons_self e rest
    · rcases Option.map_eq_some'.mp h with ⟨k, hk, _⟩
      exact List.mem_cons_of_mem e (ih k hk)

theorem entryOffset_eq_none (es : List Bytes) (v : Bytes) (h : ∀ e ∈ es, e ≠ v) :
    entryOffset es v = none := by
  induction es with
  | nil => rfl
  | cons e rest ih =>
    unfold entryOffset
    rw [if_neg (h e (List.mem_cons_self e rest)), ih fun e2 he2 => h e2 (List.mem_cons_of_mem e he2)]
    rfl

theorem entryOffset_append_left (es es2 : List Bytes) (v : Bytes) (off : Nat)
    (h : entryOffset es v = some off) : entryOffset (es ++ es2) v = some off := by
  induction es generalizing off with
  | nil => cases h
  | cons e rest ih =>
    rw [entryOffset_cons] at h
    rw [List.cons_append, entryOffset_cons]
    split_ifs at h ⊢ with he
    · exact h
    · rcases Option.map_eq_some'.mp h with ⟨k, hk, hoff⟩
      rw [ih k hk]
      simpa using hoff

theorem entryOffset_append_new (es : List Bytes) (v : Bytes) (h : v ∉ es) :
    entryOffset (es ++ [v]) v = some (tableOfEntries es).length := by
  induction es with
  | nil => simp [entryOffset, tableOfEntries]
  | cons e rest ih =>
    have hne : e ≠ v := fun he => h (he ▸ List.mem_cons_self e rest)
    show entryOffset (e :: (rest ++ [v])) v = _
    unfold entryOffset
    rw [if_neg hne, ih fun hm => h (List.mem_cons_of_mem e hm), length_tableOfEntries_cons]
    show some ((tableOfEntries rest).length + (e.length + 1)) = _
    congr 1
    omega

/-- Scanning to the next null from the start of an entry yields exactly that
entry's bytes. -/
theorem scanToNull_entry (pre e x : Bytes) (he : 0 ∉ e) :
    scanToNull (pre ++ (e ++ 0 :: x)) pre.length = e := by
  unfold scanToNull
  rw [List.drop_left, List.takeWhile_append_of_pos (by intro b hb; simp; exact fun h0 => he (h0 ▸ hb))]
  simp

/-- The dedup-scan match test, evaluated at the start of an entry: it
succeeds exactly when the entry equals the sought value (null-free entries
can match neither a proper prefix nor a proper extension of themselves). -/
theorem scanCond_iff (pre e x v : Bytes) (he : 0 ∉ e) (hv : 0 ∉ v) :
    (((pre ++ (e ++ 0 :: x)).drop pre.length).take v.length = v
      ∧ byteAt (pre ++ (e ++ 0 :: x)) (pre.length + v.length) = 0) ↔ v = e := by
  rw [List.drop_left, byteAt_append_right]
  rcases Nat.lt_trichotomy v.length e.length with hl | hl | hl
  · constructor
    · rintro ⟨-, h2⟩
      rw [show byteAt (e ++ 0 :: x) v.length = byteAt e v.length by
        unfold byteAt; rw [List.getElem?_append_left hl]] at h2
      have hsome : e[v.length]? = some e[v.length] := List.getElem?_eq_getElem hl
      unfold byteAt at h2
      rw [hsome] at h2
      simp at h2
      exact absurd (h2 ▸ List.getElem_mem hl) he
    · intro hve
      exact absurd (congrArg List.length hve) (by omega)
  · have htake : (e ++ 0 :: x).take v.length = e := by
      rw [List.take_append_eq_append_take, hl, List.take_length, Nat.sub_self, List.take_zero,
        List.append_nil]
    have hbyte : byteAt (e ++ 0 :: x) v.length = 0 := by
      have h0 := byteAt_append_right e (0 :: x) 0
      rw [Nat.add_zero] at h0
      rw [hl, h0, byteAt_cons_zero]
    rw [htake, hbyte]
    constructor
    · rintro ⟨h1, -⟩; exact h1.symm
    · intro h1; exact ⟨h1.symm, rfl⟩
  · constructor
    · rintro ⟨h1, -⟩
      have h0 : (0 : Nat) ∈ (e ++ 0 :: x).take v.length := by
        rw [List.take_append_eq_append_take]
        refine List.mem_append_right _ ?_
        have : 0 < v.length - e.length := by omega
        match hvl : v.length - e.length, this with
        | k + 1, _ => simp [List.take_cons]
      exact absurd (h1 ▸ h0) hv
    · intro hve
      exact absurd (congrArg List.length hve) (by omega)

/-- The dedup scan over a well-formed table, started at the offset of the
suffix `suf` of the entry list: it only ever tests entry-start offsets and
returns the offset of the first entry equal to `v` (or `none`). -/
theorem scanLoop_entries (v : Bytes) (hv : 0 ∉ v) (suf : List Bytes) :
    ∀ (pre : List Bytes) (fuel : Nat), suf.length < fuel →
      (∀ e ∈ suf, 0 ∉ e) →
      scanLoop (tableOfEntries (pre ++ suf)) v fuel (tableOfEntries pre).length
        = (entryOffset suf v).map (· + (tableOfEntries pre).length) := by
  induction suf with
  | nil =>
    intro pre fuel hfuel _
    match fuel, hfuel with
    | f + 1, _ =>
      rw [scanLoop, List.append_nil,
        if_neg (show ¬ ((tableOfEntries pre).length
          < (tableOfEntries pre).length - v.length) by omega)]
      rfl
  | cons e rest ih =>
    intro pre fuel hfuel hnull
    match fuel, hfuel with
    | f + 1, hfu =>
      have he : 0 ∉ e := hnull e (List.mem_cons_self e rest)
      have hrestnull : ∀ e2 ∈ rest, 0 ∉ e2 := fun e2 h2 => hnull e2 (List.mem_cons_of_mem e h2)
      have hT : tableOfEntries (pre ++ e :: rest)
          = tableOfEntries pre ++ (e ++ 0 :: tableOfEntries rest) := by
        rw [tableOfEntries_append]
        rfl
      have hlenT : (tableOfEntries pre ++ (e ++ 0 :: tableOfEntries rest)).length
          = (tableOfEntries pre).length + (e.length + 1 + (tableOfEntries rest).length) := by
        simp
        omega
      rw [hT, scanLoop]
      by_cases hve : v = e
      · have hguard : (tableOfEntries pre).length
            < (tableOfEntries pre ++ (e ++ 0 :: tableOfEntries rest)).length - v.length := by
          rw [hlenT]
          have : v.length = e.length := by rw [hve]
          omega
        rw [if_pos hguard,
          if_pos ((scanCond_iff (tableOfEntries pre) e (tableOfEntries rest) v he hv).mpr hve),
          entryOffset_cons, if_pos hve.symm]
        simp
      · rw [if_neg ((scanCond_iff (tableOfEntries pre) e (tableOfEntries rest) v he hv).not.mpr
          hve)]
        by_cases hg : (tableOfEntries pre).length
            < (tableOfEntries pre ++ (e ++ 0 :: tableOfEntries rest)).length - v.length
        · rw [if_pos hg]
          have hdist : distNull (tableOfEntries pre ++ (e ++ 0 :: tableOfEntries rest))
              (tableOfEntries pre).length = e.length := by
            unfold distNull
            rw [scanToNull_entry (tableOfEntries pre) e (tableOfEntries rest) he]
          rw [hdist]
          have hTT : tableOfEntries ((pre ++ [e]) ++ rest) = tableOfEntries (pre ++ e :: rest) := by
            congr 1
            simp
          have hidx : (tableOfEntries (pre ++ [e])).length
              = (tableOfEntries pre).length + (e.length + 1) := by
            rw [tableOfEntries_append]
            simp [length_tableOfEntries_cons, tableOfEntries]
          have hrec := ih (pre ++ [e]) f
            (by simp only [List.length_cons] at hfu; omega) hrestnull
          rw [hTT, hidx, hT] at hrec
          rw [show (tableOfEntries pre).length + e.length + 1
            = (tableOfEntries pre).length + (e.length + 1) by omega, hrec,
            entryOffset_cons, if_neg (fun h2 => hve h2.symm)]
          cases entryOffset rest v with
          | none => rfl
          | some k => simp; omega
        · rw [if_neg hg]
          have hlong : ∀ e2 ∈ e :: rest, e2 ≠ v := by
            intro e2 h2 hev
            have h3 := length_le_tableOfEntries (e :: rest) e2 h2
            rw [length_tableOfEntries_cons] at h3
            rw [hlenT] at hg
            have : e2.length = v.length := by rw [hev]
            omega
          rw [entryOffset_eq_none (e :: rest) v hlong]
          rfl

/-- The dedup scan from offset 0 computes exactly `entryOffset`. -/
theorem scanFrom_entries (es : List Bytes) (v : Bytes) (hv : 0 ∉ v)
    (hes : ∀ e ∈ es, 0 ∉ e) :
    scanFrom (tableOfEntries es) v 0 = entryOffset es v := by
  have h := scanLoop_entries v hv es [] ((tableOfEntries es).length + 1)
    (by have := entries_length_le_tableOfEntries es; omega) hes
  simp only [List.nil_append] at h
  show scanLoop (tableOfEntries es) v ((tableOfEntries es).length + 1) 0 = entryOffset es v
  rw [show (0 : Nat) = (tableOfEntries []).length from rfl, h]
  cases entryOffset es v <;> simp [tableOfEntries]

theorem entryOffset_isSome_of_mem (es : List Bytes) (v : Bytes) (h : v ∈ es) :
    ∃ off, entryOffset es v = some off := by
  induction es with
  | nil => cases h
  | cons e rest ih =>
    rw [entryOffset_cons]
    by_cases he : e = v
    · exact ⟨0, if_pos he⟩
    · have hmem : v ∈ rest := by
        rcases List.mem_cons.mp h with h1 | h1
        · exact absurd h1.symm he
        · exact h1
      rcases ih hmem with ⟨k, hk⟩
      exact ⟨k + (e.length + 1), by rw [if_neg he, hk]; rfl⟩

theorem internEntries_exists_suffix (es : List Bytes) (v : Bytes) :
    ∃ d, internEntries es v = es ++ d := by
  unfold internEntries
  split_ifs
  · exact ⟨[], by simp⟩
  · exact ⟨[v], rfl⟩

/-- Behaviour of one intern step on a well-formed table: the invariant is
preserved, the entry list at most gains the upper-cased value at the end,
and the returned offset is the offset of the entry holding the upper-cased
value. -/
theorem add_string_to_table_spec (st : InternState) (es : List Bytes) (value : Bytes)
    (hInv : TableInv st es) (hval : 0 ∉ value) :
    TableInv (add_string_to_table st value).2 (internEntries es (upperBytes value))
      ∧ entryOffset (internEntries es (upperBytes value)) (upperBytes value)
          = some (add_string_to_table st value).1 := by
  have hv : 0 ∉ upperBytes value := zero_not_mem_upperBytes value hval
  cases hc : cacheLookup st.cache (upperBytes value) with
  | some off =>
    have hoff := hInv.hcache (upperBytes value) off hc
    have hmem := entryOffset_mem es (upperBytes value) off hoff
    simp only [add_string_to_table, hc, internEntries, if_pos hmem]
    exact ⟨hInv, hoff⟩
  | none =>
    have hscan : scanFrom st.table (upperBytes value) 0 = entryOffset es (upperBytes value) := by
      rw [hInv.htable]
      exact scanFrom_entries es (upperBytes value) hv hInv.hnull
    cases heo : entryOffset es (upperBytes value) with
    | some idx =>
      have hmem := entryOffset_mem es (upperBytes value) idx heo
      simp only [add_string_to_table, hc, hscan, heo, internEntries, if_pos hmem]
      refine ⟨⟨hInv.htable, hInv.hnull, hInv.hnodup, ?_⟩, trivial⟩
      intro v2 off2 h2
      unfold cacheLookup at h2
      split_ifs at h2 with hk
      · cases h2; exact hk ▸ heo
      · exact hInv.hcache v2 off2 h2
    | none =>
      have hnmem : upperBytes value ∉ es := by
        intro hmem
        rcases entryOffset_isSome_of_mem es (upperBytes value) hmem with ⟨off2, hoff2⟩
        rw [heo] at hoff2
        cases hoff2
      simp only [add_string_to_table, hc, hscan, heo, internEntries, if_neg hnmem]
      have htbl : st.table ++ upperBytes value ++ [0]
          = tableOfEntries (es ++ [upperBytes value]) := by
        rw [tableOfEntries_append, hInv.htable, List.append_assoc]
        rfl
      have hnew : entryOffset (es ++ [upperBytes value]) (upperBytes value)
          = some st.table.length := by
        rw [entryOffset_append_new es (upperBytes value) hnmem, hInv.htable]
      refine ⟨⟨htbl, ?_, ?_, ?_⟩, hnew⟩
      · intro e he
        rcases List.mem_append.mp he with h1 | h1
        · exact hInv.hnull e h1
        · rw [List.mem_singleton.mp h1]; exact hv
      · simp [List.nodup_append, hInv.hnodup, hnmem]
      · intro v2 off2 h2
        unfold cacheLookup at h2
        split_ifs at h2 with hk
        · cases h2; exact hk ▸ hnew
        · exact entryOffset_append_left es [upperBytes value] v2 off2 (hInv.hcache v2 off2 h2)

/-- Interning a list of values in order, returning the offsets in order
(the loop at source lines 201-218 performs exactly these calls). -/
def internAll (st : InternState) : List Bytes → (List Nat × InternState)
  | [] => ([], st)
  | v :: rest =>
    let r := add_string_to_table st v
    let r2 := internAll r.2 rest
    (r.1 :: r2.1, r2.2)

/-- Folded intern specification: the entry list only grows at the end, the
invariant is maintained, one offset is returned per value, and each returned
offset is the table offset of the entry holding the corresponding
upper-cased value. -/
theorem internAll_spec (values : List Bytes) :
    ∀ (st : InternState) (es : List Bytes), TableInv st es → (∀ v ∈ values, 0 ∉ v) →
      ∃ es2, TableInv (internAll st values).2 (es ++ es2)
        ∧ ((internAll st values).1).length = values.length
        ∧ ∀ i, i < values.length →
            entryOffset (es ++ es2) (upperBytes (values.getD i []))
              = some ((internAll st values).1.getD i 0) := by
  induction values with
  | nil =>
    intro st es hInv _
    exact ⟨[], by simpa using hInv, rfl, fun i hi => by cases hi⟩
  | cons v rest ih =>
    intro st es hInv hnull
    have hstep := add_string_to_table_spec st es v hInv (hnull v (List.mem_cons_self v rest))
    rcases internEntries_exists_suffix es (upperBytes v) with ⟨d, hd⟩
    rw [hd] at hstep
    rcases ih (add_string_to_table st v).2 (es ++ d) hstep.1
      (fun v2 h2 => hnull v2 (List.mem_cons_of_mem v h2)) with ⟨es2, hInv2, hlen2, hoff2⟩
    refine ⟨d ++ es2, ?_, ?_, ?_⟩
    · show TableInv (internAll st (v :: rest)).2 _
      rw [show (internAll st (v :: rest)).2 = (internAll (add_string_to_table st v).2 rest).2
        from rfl, ← List.append_assoc]
      exact hInv2
    · show ((add_string_to_table st v).1 :: (internAll (add_string_to_table st v).2 rest).1).length
        = rest.length + 1
      rw [List.length_cons, hlen2]
    · intro i hi
      match i with
      | 0 =>
        rw [← List.append_assoc]
        show entryOffset ((es ++ d) ++ es2) (upperBytes v) = some (add_string_to_table st v).1
        exact entryOffset_append_left (es ++ d) es2 (upperBytes v)
          (add_string_to_table st v).1 hstep.2
      | i2 + 1 =>
        rw [← List.append_assoc]
        show entryOffset ((es ++ d) ++ es2) (upperBytes (rest.getD i2 []))
          = some ((internAll (add_string_to_table st v).2 rest).1.getD i2 0)
        exact hoff2 i2 (by simpa using Nat.lt_of_succ_lt_succ hi)

/-- The initial pack-run string table `bytearray(b'\0')` is the table of the
single pre-seeded empty entry, with a sound (empty) cache. -/
theorem TableInv_init : TableInv initInternState [[]] := by
  refine ⟨rfl, ?_, ?_, ?_⟩
  · intro e he
    rw [List.mem_singleton.mp he]
    simp
  · simp
  · intro v off h
    cases h

theorem entryOffset_decompose (es : List Bytes) (v : Bytes) (off : Nat)
    (h : entryOffset es v = some off) :
    ∃ pre post, es = pre ++ v :: post ∧ (tableOfEntries pre).length = off := by
  induction es generalizing off with
  | nil => cases h
  | cons e rest ih =>
    rw [entryOffset_cons] at h
    split_ifs at h with he
    · cases h
      exact ⟨[], rest, by simp [he], rfl⟩
    · rcases Option.map_eq_some'.mp h with ⟨k, hk, hoff⟩
      rcases ih k hk with ⟨pre, post, hsplit, hlen⟩
      refine ⟨e :: pre, post, by rw [hsplit]; rfl, ?_⟩
      rw [length_tableOfEntries_cons, hlen]
      omega

theorem entryOffset_lt_length (es : List Bytes) (v : Bytes) (off : Nat)
    (h : entryOffset es v = some off) :
    off + v.length + 1 ≤ (tableOfEntries es).length := by
  rcases entryOffset_decompose es v off h with ⟨pre, post, hsplit, hlen⟩
  subst hsplit
  rw [tableOfEntries_append, List.length_append, length_tableOfEntries_cons, hlen]
  omega

/-- `unpack_string_from_table` applied at the offset of an interned entry
returns exactly that entry's bytes. -/
theorem lookup_entryOffset (es : List Bytes) (v : Bytes) (off : Nat)
    (hnull : ∀ e ∈ es, 0 ∉ e) (h : entryOffset es v = some off) (hvalid : utf8Valid v) :
    unpack_string_from_table (tableOfEntries es) off = some v := by
  rcases entryOffset_decompose es v off h with ⟨pre, post, hsplit, hlen⟩
  subst hsplit
  have hT : tableOfEntries (pre ++ v :: post)
      = tableOfEntries pre ++ (v ++ 0 :: tableOfEntries post) := by
    rw [tableOfEntries_append]
    rfl
  have hscan : scanToNull (tableOfEntries pre ++ (v ++ 0 :: tableOfEntries post)) off = v := by
    rw [← hlen]
    exact scanToNull_entry _ v _ (hnull v (by simp))
  unfold unpack_string_from_table
  rw [hT, hscan, if_pos hvalid]

/-! ### Pack: building the file table and the sector layout -/

/-- One regular file discovered by the `os.walk` of `pack_cdfs` (lines
183-193): its relative directory (already in the backslash form produced by
line 202's `replace('/', '\\')` and `os.path.split`), its leaf name, and its
content bytes (`size` on line 187 equals `content.length`; tasks later read
exactly these bytes). -/
structure PFile where
  dir : Bytes
  name : Bytes
  content : Bytes
deriving DecidableEq

/-- A provisional file-table record (lines 208-213); `start_sector` is
assigned afterwards by the layout loop. -/
structure FEntry where
  file_name_offset : Nat
  dir_name_offset : Nat
  size : Nat
deriving DecidableEq

def noFile : PFile := ⟨[], [], []⟩

def noFEntry : FEntry := ⟨0, 0, 0⟩

/-- The heuristic `string_table_entries` update of lines 215-218 for one
file: a counter is bumped when the interned offset sits exactly one
null-terminated slot from the end of the (post-intern) table.  (Both Python
`len` calls see the table after both interns, which is why the counter can
undercount; the header treats it as informational only.  Lines 216 and 218
measure the path components in `str` characters, equal to the byte lengths
used here on the ASCII domain; no judged claim depends on this counter's
value.) -/
def steBump (st : InternState) (ste : Nat) (f : PFile) : Nat :=
  let rd := add_string_to_table st f.dir
  let rn := add_string_to_table rd.2 f.name
  let tlen := rn.2.table.length
  let ste1 := if f.dir ≠ [] ∧ rd.1 = tlen - f.dir.length - 1 then ste + 1 else ste
  if rn.1 = tlen - f.name.length - 1 then ste1 + 1 else ste1

/-- The loop of lines 201-218: intern directory then file name, record the
entry, and update the heuristic `string_table_entries` counter. -/
def buildLoop : InternState → Nat → List PFile → (List FEntry × InternState × Nat)
  | st, ste, [] => ([], st, ste)
  | st, ste, f :: rest =>
    let rd := add_string_to_table st f.dir
    let rn := add_string_to_table rd.2 f.name
    let r := buildLoop rn.2 (steBump st ste f) rest
    (⟨rn.1, rd.1, f.content.length⟩ :: r.1, r.2)

/-- Lines 197-218 in full: start from `bytearray(b'\0')`, empty cache and
`string_table_entries = 1`. -/
def buildTables (files : List PFile) : List FEntry × InternState × Nat :=
  buildLoop initInternState 1 files

theorem upperBytes_length (s : Bytes) : (upperBytes s).length = s.length := by
  simp [upperBytes]

/-- Specification of the table-building loop: the entry list only grows, the
invariant is kept, one file-table record is produced per file, and each
record's string offsets are the table offsets of the upper-cased directory
and name, with `size` the content length. -/
theorem buildLoop_spec (files : List PFile) :
    ∀ (st : InternState) (ste : Nat) (es : List Bytes), TableInv st es →
      (∀ f ∈ files, 0 ∉ f.dir ∧ 0 ∉ f.name) →
      ∃ es2, TableInv (buildLoop st ste files).2.1 (es ++ es2)
        ∧ (buildLoop st ste files).1.length = files.length
        ∧ ∀ i, i < files.length →
            entryOffset (es ++ es2) (upperBytes ((files.getD i noFile).dir))
              = some (((buildLoop st ste files).1.getD i noFEntry).dir_name_offset)
          ∧ entryOffset (es ++ es2) (upperBytes ((files.getD i noFile).name))
              = some (((buildLoop st ste files).1.getD i noFEntry).file_name_offset)
          ∧ ((buildLoop st ste files).1.getD i noFEntry).size
              = (files.getD i noFile).content.length := by
  induction files with
  | nil =>
    intro st ste es hInv _
    exact ⟨[], by simpa using hInv, rfl, fun i hi => by cases hi⟩
  | cons f rest ih =>
    intro st ste es hInv hnull
    have hf := hnull f (List.mem_cons_self f rest)
    have hd := add_string_to_table_spec st es f.dir hInv hf.1
    rcases internEntries_exists_suffix es (upperBytes f.dir) with ⟨d1, hd1⟩
    rw [hd1] at hd
    have hn := add_string_to_table_spec (add_string_to_table st f.dir).2 (es ++ d1) f.name
      hd.1 hf.2
    rcases internEntries_exists_suffix (es ++ d1) (upperBytes f.name) with ⟨d2, hd2⟩
    rw [hd2] at hn
    rcases ih (add_string_to_table (add_string_to_table st f.dir).2 f.name).2
      (steBump st ste f) ((es ++ d1) ++ d2) hn.1
      (fun f2 h2 => hnull f2 (List.mem_cons_of_mem f h2))
      with ⟨es2, hInv2, hlen2, hoff2⟩
    have hred : buildLoop st ste (f :: rest)
        = (⟨(add_string_to_table (add_string_to_table st f.dir).2 f.name).1,
            (add_string_to_table st f.dir).1, f.content.length⟩
              :: (buildLoop (add_string_to_table (add_string_to_table st f.dir).2 f.name).2
                  (steBump st ste f) rest).1,
            (buildLoop (add_string_to_table (add_string_to_table st f.dir).2 f.name).2
                  (steBump st ste f) rest).2) := rfl
    refine ⟨d1 ++ d2 ++ es2, ?_, ?_, ?_⟩
    · rw [hred]
      show TableInv (buildLoop (add_string_to_table (add_string_to_table st f.dir).2 f.name).2
        (steBump st ste f) rest).2.1 _
      have : es ++ (d1 ++ d2 ++ es2) = ((es ++ d1) ++ d2) ++ es2 := by
        simp [List.append_assoc]
      rw [this]
      exact hInv2
    · rw [hred]
      show (_ :: (buildLoop _ _ rest).1).length = (f :: rest).length
      rw [List.length_cons, List.length_cons, hlen2]
    · intro i hi
      have hassoc : es ++ (d1 ++ d2 ++ es2) = ((es ++ d1) ++ d2) ++ es2 := by
        simp [List.append_assoc]
      match i with
      | 0 =>
        rw [hred, hassoc]
        refine ⟨?_, ?_, rfl⟩
        · show entryOffset _ (upperBytes f.dir) = some (add_string_to_table st f.dir).1
          apply entryOffset_append_left
          apply entryOffset_append_left
          exact hd.2
        · show entryOffset _ (upperBytes f.name)
            = some (add_string_to_table (add_string_to_table st f.dir).2 f.name).1
          apply entryOffset_append_left
          exact hn.2
      | i2 + 1 =>
        rw [hred, hassoc]
        have hi2 : i2 < rest.length := by
          rw [List.length_cons] at hi
          omega
        have h3 := hoff2 i2 hi2
        exact ⟨h3.1, h3.2.1, h3.2.2⟩

/-- Round the preamble size up to the next multiple of the sector size
(lines 225-229: add `sector_size - (offset % sector_size)` unless already
aligned). -/
def roundUpSector (n ss : Nat) : Nat := if n % ss ≠ 0 then n + (ss - n % ss) else n

/-- Sectors needed by a payload: `(size + sector_size - 1) // sector_size`
(line 234). -/
def sectorsNeeded (size ss : Nat) : Nat := (size + ss - 1) / ss

/-- The sector-assignment loop of lines 231-235 over the entry sizes:
`start_sector` per entry, plus the final `current_sector`. -/
def assign_sectors (ss : Nat) : List Nat → Nat → (List Nat × Nat)
  | [], cur => ([], cur)
  | sz :: rest, cur =>
    let r := assign_sectors ss rest (cur + sectorsNeeded sz ss)
    (cur :: r.1, r.2)

/-- The full layout computation of `pack_cdfs` lines 220-235: first sector
offset, per-entry start sectors (in discovery order), and total sectors. -/
def pack_layout (sizes : List Nat) (string_table_size ss : Nat) : Nat × List Nat × Nat :=
  (roundUpSector (40 + sizes.length * 16 + string_table_size) ss,
   (assign_sectors ss sizes 0).1, (assign_sectors ss sizes 0).2)

theorem assign_sectors_length (ss : Nat) (sizes : List Nat) :
    ∀ cur, (assign_sectors ss sizes cur).1.length = sizes.length := by
  induction sizes with
  | nil => intro cur; rfl
  | cons sz rest ih =>
    intro cur
    show (cur :: (assign_sectors ss rest (cur + sectorsNeeded sz ss)).1).length = _
    rw [List.length_cons, ih, List.length_cons]

theorem assign_sectors_getD (ss : Nat) (sizes : List Nat) :
    ∀ cur i, i < sizes.length →
      (assign_sectors ss sizes cur).1.getD i 0
        = cur + ((sizes.take i).map (fun s => sectorsNeeded s ss)).sum := by
  induction sizes with
  | nil => intro cur i hi; cases hi
  | cons sz rest ih =>
    intro cur i hi
    match i with
    | 0 =>
      show (cur :: (assign_sectors ss rest (cur + sectorsNeeded sz ss)).1).getD 0 0 = _
      simp
    | i2 + 1 =>
      show (cur :: (assign_sectors ss rest (cur + sectorsNeeded sz ss)).1).getD (i2 + 1) 0 = _
      rw [List.getD_cons_succ, ih (cur + sectorsNeeded sz ss) i2 (by simp at hi; omega)]
      show _ = cur + (((sz :: rest).take (i2 + 1)).map (fun s => sectorsNeeded s ss)).sum
      rw [List.take_succ_cons, List.map_cons, List.sum_cons]
      omega

theorem assign_sectors_total (ss : Nat) (sizes : List Nat) :
    ∀ cur, (assign_sectors ss sizes cur).2
      = cur + (sizes.map (fun s => sectorsNeeded s ss)).sum := by
  induction sizes with
  | nil => intro cur; simp [assign_sectors]
  | cons sz rest ih =>
    intro cur
    show (assign_sectors ss rest (cur + sectorsNeeded sz ss)).2 = _
    rw [ih, List.map_cons, List.sum_cons]
    omega

theorem sum_map_take_succ (g : Nat → Nat) (l : List Nat) :
    ∀ i, i < l.length →
      ((l.take (i + 1)).map g).sum = ((l.take i).map g).sum + g (l.getD i 0) := by
  induction l with
  | nil => intro i hi; cases hi
  | cons x rest ih =>
    intro i hi
    match i with
    | 0 => simp
    | i2 + 1 =>
      rw [List.take_succ_cons, List.take_succ_cons, List.map_cons, List.map_cons, List.sum_cons,
        List.sum_cons, ih i2 (by simp at hi; omega), List.getD_cons_succ]
      omega

theorem sum_map_take_mono (g : Nat → Nat) (l : List Nat) :
    ∀ a b, a ≤ b → ((l.take a).map g).sum ≤ ((l.take b).map g).sum := by
  induction l with
  | nil => intro a b _; simp
  | cons x rest ih =>
    intro a b hab
    match a, b with
    | 0, _ => simp
    | a2 + 1, b2 + 1 =>
      rw [List.take_succ_cons, List.take_succ_cons, List.map_cons, List.map_cons, List.sum_cons,
        List.sum_cons]
      exact Nat.add_le_add_left (ih a2 b2 (by omega)) (g x)

/-- `size ≤ sectorsNeeded size ss * ss` for positive `ss`: a payload fits in
its sectors. -/
theorem size_le_sectorsNeeded (size ss : Nat) (h : 0 < ss) :
    size ≤ sectorsNeeded size ss * ss := by
  unfold sectorsNeeded
  have hdm := Nat.div_add_mod (size + ss - 1) ss
  have hr : (size + ss - 1) % ss < ss := Nat.mod_lt _ h
  have hcomm : (size + ss - 1) / ss * ss = ss * ((size + ss - 1) / ss) := Nat.mul_comm _ _
  omega

/-- The padding written by one payload task rounds the content length up to
the sector boundary (line 164). -/
theorem content_plus_padding (n ss : Nat) (h : 0 < ss) :
    n + (ss - n % ss) % ss = sectorsNeeded n ss * ss := by
  unfold sectorsNeeded
  have hdm := Nat.div_add_mod n ss
  have hr : n % ss < ss := Nat.mod_lt _ h
  have hdm2 := Nat.div_add_mod (n + ss - 1) ss
  have hcomm : (n + ss - 1) / ss * ss = ss * ((n + ss - 1) / ss) := Nat.mul_comm _ _
  rcases Nat.eq_zero_or_pos (n % ss) with hz | hz
  · have hmodss : (ss - n % ss) % ss = 0 := by rw [hz, Nat.sub_zero, Nat.mod_self]
    have hr2 : (n + ss - 1) % ss = ss - 1 := by
      rw [show n + ss - 1 = ss * (n / ss) + (ss - 1) by omega, Nat.mul_add_mod,
        Nat.mod_eq_of_lt (by omega)]
    omega
  · have hmodss : (ss - n % ss) % ss = ss - n % ss := Nat.mod_eq_of_lt (by omega)
    have hdist : ss * (n / ss + 1) = ss * (n / ss) + ss := by ring
    have hr2 : (n + ss - 1) % ss = n % ss - 1 := by
      rw [show n + ss - 1 = ss * (n / ss + 1) + (n % ss - 1) by omega, Nat.mul_add_mod,
        Nat.mod_eq_of_lt (by omega)]
    omega

/-- `roundUpSector` is the least multiple of `ss` at or above `n`. -/
theorem roundUpSector_spec (n ss : Nat) (h : 0 < ss) :
    ss ∣ roundUpSector n ss ∧ n ≤ roundUpSector n ss ∧ roundUpSector n ss < n + ss := by
  unfold roundUpSector
  have hdm := Nat.div_add_mod n ss
  have hmod : n % ss < ss := Nat.mod_lt _ h
  have hdist : ss * (n / ss + 1) = ss * (n / ss) + ss := by ring
  split_ifs with hz
  · exact ⟨⟨n / ss + 1, by omega⟩, by omega, by omega⟩
  · exact ⟨⟨n / ss, by omega⟩, by omega, by omega⟩

/-! ### Pack: serializing and writing the archive -/

/-- The flat u32 field list of the serialized file table: for each entry in
order, `file_name_offset, dir_name_offset, start_sector, size`
(`struct.pack('<IIII', ...)`, lines 252-258). -/
def ftableFields : List FEntry → List Nat → List Nat
  | e :: er, s :: sr =>
      e.file_name_offset :: e.dir_name_offset :: s :: e.size :: ftableFields er sr
  | _, _ => []

/-- The serialized header (`struct.pack('<IIIIIIIIII', ...)`, lines 238-250). -/
def encodeHeader (magic version ss cache fso total ftlen ftn stlen sten : Nat) : Bytes :=
  encodeU32List [magic, version, ss, cache, fso, total, ftlen, ftn, stlen, sten]

/-- File-table records built by the pack run (lines 180-218). -/
def packEntries (files : List PFile) : List FEntry := (buildTables files).1

/-- Final string-table state of the pack run. -/
def packState (files : List PFile) : InternState := (buildTables files).2.1

/-- Final heuristic `string_table_entries` counter of the pack run. -/
def packSte (files : List PFile) : Nat := (buildTables files).2.2

/-- `first_sector_offset` (lines 220-229). -/
def packFso (files : List PFile) (ss : Nat) : Nat :=
  roundUpSector (40 + (packEntries files).length * 16 + (packState files).table.length) ss

/-- The `start_sector` assignment (lines 231-235). -/
def packStarts (files : List PFile) (ss : Nat) : List Nat :=
  (assign_sectors ss ((packEntries files).map (·.size)) 0).1

/-- The final `current_sector` (= `total_sectors` in the header). -/
def packTotal (files : List PFile) (ss : Nat) : Nat :=
  (assign_sectors ss ((packEntries files).map (·.size)) 0).2

/-- The sequential writes of lines 237-263: header, file table, string
table, then zero padding up to the first sector boundary. -/
def packPreamble (files : List PFile) (ss cache : Nat) : Bytes :=
  encodeHeader CDFS_MAGIC CDFS_VERSION ss cache (packFso files ss) (packTotal files ss)
      ((packEntries files).length * 16) (packEntries files).length
      (packState files).table.length (packSte files)
    ++ encodeU32List (ftableFields (packEntries files) (packStarts files ss))
    ++ (packState files).table
    ++ zeros (packFso files ss
        - (40 + (packEntries files).length * 16 + (packState files).table.length))

/-- Lines 267-268: seek to the last byte of the final layout and write one
zero byte, extending the file to its full size (the gap reads as zeros). -/
def packBase (files : List PFile) (ss cache : Nat) : Bytes :=
  writeAt (packPreamble files ss cache) (packFso files ss + packTotal files ss * ss - 1) [0]

/-- One payload task (`process_file_task`, lines 158-174): seek to
`first_sector_offset + start_sector*sector_size`, write the file bytes, then
zero-pad to the next sector boundary. -/
def packTaskWrite (a : Bytes) (fso ss start : Nat) (content : Bytes) : Bytes :=
  writeAt a (fso + start * ss) (content ++ zeros ((ss - content.length % ss) % ss))

/-- `pack_cdfs` with the payload tasks serialized in the given order of
entry indexes.  The thread pool completes tasks in a nondeterministic order,
and each byte of the payload region is written by at most one task, so every
concurrent execution equals some order-permuted fold. -/
def pack_cdfs_ordered (files : List PFile) (ss cache : Nat) (order : List Nat) : Bytes :=
  order.foldl
    (fun a i => packTaskWrite a (packFso files ss) ss ((packStarts files ss).getD i 0)
      (files.getD i noFile).content)
    (packBase files ss cache)

/-- `pack_cdfs` (lines 178-298): the archive bytes produced from the
discovered files with the given sector size and cache-size hint. -/
def pack_cdfs (files : List PFile) (ss cache : Nat) : Bytes :=
  pack_cdfs_ordered files ss cache (List.range files.length)

/-! ### Unpack and verify -/

/-- `struct.pack('>I', magic)`: the four big-endian bytes of the magic word
(computed on line 61 before the magic comparison). -/
def beBytes (m : Nat) : Bytes := [m / 16777216 % 256, m / 65536 % 256, m / 256 % 256, m % 256]

/-- Python exceptions that escape `unpack_cdfs` (it has no handler). -/
inductive PyErr where
  | structError
  | unicodeDecodeError
deriving DecidableEq

/-- Observable outcome of `unpack_cdfs`: the per-entry write tasks
(destination path, bytes written), the graceful `return False` of the magic
check, or an uncaught exception. -/
inductive UnpackOutcome where
  | ok (tasks : List (Bytes × Bytes))
  | failedFalse
  | crash (e : PyErr)
deriving DecidableEq

/-- Read `n` 16-byte file-table records starting at `pos` (lines 77-85 /
381-393); `none` models the `struct.error` of a short read. -/
def readFTable (a : Bytes) (pos : Nat) : Nat → Option (List (Nat × Nat × Nat × Nat))
  | 0 => some []
  | n + 1 =>
    if pos + 16 ≤ a.length then
      match readFTable a (pos + 16) n with
      | some rest =>
          some ((readU32 a pos, readU32 a (pos + 4), readU32 a (pos + 8), readU32 a (pos + 12))
            :: rest)
      | none => none
    else none

/-- Line 98: `dir_name.replace('\\', '/')`. -/
def normalizeSep (s : Bytes) : Bytes := s.map (fun b => if b = 92 then 47 else b)

/-- Lines 97-101: the destination path relative to the output directory
(`os.path.join` of non-absolute components inserts one separator). -/
def destPath (dir name : Bytes) : Bytes :=
  if dir = [] then name else normalizeSep dir ++ 47 :: name

/-- The transfer buffer size of `unpack_file_task` (line 43). -/
def BUFSZ : Nat := 16 * 1024 * 1024

/-- The chunked copy loop of `unpack_file_task` (lines 44-48): request
`min(remaining, buffer)` bytes, write whatever the read returned, advance
the cursor by the bytes actually read, and decrement `remaining` by the
requested size.  Fuel bounds the iterations (each one decrements `remaining`
by at least 1). -/
def readChunks (a : Bytes) : Nat → Nat → Nat → Bytes
  | 0, _, _ => []
  | fuel + 1, pos, remaining =>
    if remaining = 0 then []
    else
      readAt a pos (min remaining BUFSZ)
        ++ readChunks a fuel (pos + (readAt a pos (min remaining BUFSZ)).length)
            (remaining - min remaining BUFSZ)

/-- `unpack_file_task` (lines 36-50): the bytes it writes to its
destination file. -/
def unpack_file_task (a : Bytes) (file_offset file_length : Nat) : Bytes :=
  readChunks a (file_length + 1) file_offset file_length

/-- Lines 90-103: resolve each entry's name, directory and byte range and
produce its task; a string-table decode error is raised in this loop and
aborts the whole unpack. -/
def unpackTasksLoop (a st : Bytes) (fso ss : Nat) :
    List (Nat × Nat × Nat × Nat) → Option (List (Bytes × Bytes))
  | [] => some []
  | (fOff, dOff, start, len) :: rest =>
    match unpack_string_from_table st fOff, unpack_string_from_table st dOff with
    | some name, some dir =>
      match unpackTasksLoop a st fso ss rest with
      | some tasks => some ((destPath dir name, unpack_file_task a (fso + start * ss) len) :: tasks)
      | none => none
    | _, _ => none

/-- `unpack_cdfs` (lines 54-133). -/
def unpack_cdfs (a : Bytes) : UnpackOutcome :=
  if a.length < 40 then .crash .structError
  else if ¬ ((beBytes (readU32 a 0)).all (fun b => decide (b ≤ 127))) then
    .crash .unicodeDecodeError
  else if readU32 a 0 ≠ CDFS_MAGIC then .failedFalse
  else
    match readFTable a 40 (readU32 a 28) with
    | none => .crash .structError
    | some entries =>
      match unpackTasksLoop a (readAt a (40 + 16 * readU32 a 28) (readU32 a 32))
          (readU32 a 16) (readU32 a 8) entries with
      | some tasks => .ok tasks
      | none => .crash .unicodeDecodeError

/-- The destination filesystem after the unpack tasks ran: each task writes
its whole file, and for equal paths the last write wins. -/
def finalFS (tasks : List (Bytes × Bytes)) (p : Bytes) : Option Bytes :=
  (tasks.filterMap (fun t => if t.1 = p then some t.2 else none)).getLast?

/-- The file found at path `p` of the destination tree after unpacking `a`
(`none` when the unpack failed or wrote no such file). -/
def unpackFS (a p : Bytes) : Option Bytes :=
  match unpack_cdfs a with
  | UnpackOutcome.ok tasks => finalFS tasks p
  | _ => none

/-- The round-trip property of §8 of the spec, for one packed tree: after
`unpack(pack(files))`, every file of the tree is present at its upper-cased
path with exactly its original bytes. -/
def cdfsRoundTrip (files : List PFile) (ss cache : Nat) : Prop :=
  ∀ f ∈ files,
    unpackFS (pack_cdfs files ss cache) (destPath (upperBytes f.dir) (upperBytes f.name))
      = some f.content

instance (files : List PFile) (ss cache : Nat) : Decidable (cdfsRoundTrip files ss cache) := by
  unfold cdfsRoundTrip
  infer_instance

/-- `verify_cdfs` (lines 350-431). -/
def verify_cdfs (a : Bytes) : Bool :=
  if a.length < 40 then false
  else if readU32 a 0 ≠ CDFS_MAGIC then false
  else if readU32 a 16 > a.length then false
  else if readU32 a 28 * 16 ≠ readU32 a 24 then false
  else
    match readFTable a 40 (readU32 a 28) with
    | none => false
    | some entries =>
      if (readAt a (40 + 16 * readU32 a 28) (readU32 a 32)).length < readU32 a 32 then false
      else entries.all (fun e =>
        decide (readU32 a 16 + e.2.2.1 * readU32 a 8 + e.2.2.2 ≤ a.length)
        && decide (e.1 < readU32 a 32)
        && decide (e.2.1 < readU32 a 32)
        && (unpack_string_from_table (readAt a (40 + 16 * readU32 a 28) (readU32 a 32))
            e.1).isSome
        && (unpack_string_from_table (readAt a (40 + 16 * readU32 a 28) (readU32 a 32))
            e.2.1).isSome)

/-! ### Structure of the packed archive -/

theorem ftableFields_length (entries : List FEntry) :
    ∀ starts : List Nat, entries.length = starts.length →
      (ftableFields entries starts).length = 4 * entries.length := by
  induction entries with
  | nil => intro starts _; rfl
  | cons e er ih =>
    intro starts h
    match starts with
    | s :: sr =>
      show (e.file_name_offset :: e.dir_name_offset :: s :: e.size :: ftableFields er sr).length = _
      simp only [List.length_cons] at h ⊢
      rw [ih sr (by omega)]
      omega

theorem length_packStarts (files : List PFile) (ss : Nat) :
    (packStarts files ss).length = (packEntries files).length := by
  unfold packStarts
  rw [assign_sectors_length, List.length_map]

theorem length_encodeHeader (m v s c f t fl fn sl se : Nat) :
    (encodeHeader m v s c f t fl fn sl se).length = 40 := by
  unfold encodeHeader
  rw [length_encodeU32List]
  rfl

theorem length_packPreamble (files : List PFile) (ss cache : Nat) (h : 0 < ss) :
    (packPreamble files ss cache).length = packFso files ss := by
  have hra := (roundUpSector_spec
    (40 + (packEntries files).length * 16 + (packState files).table.length) ss h).2.1
  unfold packPreamble
  rw [List.length_append, List.length_append, List.length_append, length_encodeHeader,
    length_encodeU32List, ftableFields_length _ _ (length_packStarts files ss).symm]
  unfold zeros
  rw [List.length_replicate]
  unfold packFso at hra ⊢
  omega

theorem zeros_append_zero (k : Nat) : zeros k ++ [0] = zeros (k + 1) := by
  unfold zeros
  rw [← List.replicate_succ' k 0]

/-- Lines 267-268 extend the file to exactly the final layout size, the tail
reading as zeros (`packPreamble` always ends with a zero byte, so the
overwrite in the `total = 0` case is a no-op). -/
theorem packBase_eq (files : List PFile) (ss cache : Nat) (h : 0 < ss)
    (hQ : ∃ Q, packPreamble files ss cache = Q ++ [0]) :
    packBase files ss cache = packPreamble files ss cache ++ zeros (packTotal files ss * ss) := by
  have hL := length_packPreamble files ss cache h
  have hfso : 40 ≤ packFso files ss := by
    have := (roundUpSector_spec
      (40 + (packEntries files).length * 16 + (packState files).table.length) ss h).2.1
    unfold packFso
    omega
  unfold packBase
  cases htot : packTotal files ss * ss with
  | zero =>
    rcases hQ with ⟨Q, hQ⟩
    have hQl : Q.length = packFso files ss - 1 := by
      have h2 := congrArg List.length hQ
      rw [List.length_append, List.length_singleton] at h2
      omega
    rw [Nat.add_zero, writeAt_eq_of_le _ _ _ (by omega), hQ,
      show packFso files ss - 1 = Q.length by omega, List.take_left,
      List.drop_of_length_le (by simp)]
    simp [zeros]
  | succ k =>
    unfold writeAt
    rw [List.take_of_length_le (by omega), List.drop_of_length_le (by omega)]
    have h1 : packFso files ss + (k + 1) - 1 - (packPreamble files ss cache).length = k := by
      omega
    rw [h1, List.append_nil, List.append_assoc, zeros_append_zero]

/-- Disjointness of two write requests (offset, data). -/
def wDisj (w1 w2 : Nat × Bytes) : Prop :=
  w1.1 + w1.2.length ≤ w2.1 ∨ w2.1 + w2.2.length ≤ w1.1

/-- Folding a list of pairwise-disjoint in-bounds writes: the length is
unchanged, every written range reads back as its data, and every range
disjoint from all writes is untouched. -/
theorem foldl_writeAt_spec (writes : List (Nat × Bytes)) :
    ∀ a : Bytes,
      (∀ w ∈ writes, w.1 + w.2.length ≤ a.length) →
      writes.Pairwise wDisj →
      ((writes.foldl (fun acc w => writeAt acc w.1 w.2) a).length = a.length
      ∧ (∀ w ∈ writes,
          readAt (writes.foldl (fun acc w => writeAt acc w.1 w.2) a) w.1 w.2.length = w.2)
      ∧ ∀ o n2, (∀ w ∈ writes, o + n2 ≤ w.1 ∨ w.1 + w.2.length ≤ o) →
          readAt (writes.foldl (fun acc w => writeAt acc w.1 w.2) a) o n2 = readAt a o n2) := by
  induction writes with
  | nil =>
    intro a _ _
    exact ⟨rfl, fun w hw => absurd hw (List.not_mem_nil w), fun o n2 _ => rfl⟩
  | cons w rest ih =>
    intro a hin hpw
    have hw : w.1 + w.2.length ≤ a.length := hin w (List.mem_cons_self w rest)
    have hlen1 : (writeAt a w.1 w.2).length = a.length := length_writeAt a w.1 w.2 hw
    have hinr : ∀ u ∈ rest, u.1 + u.2.length ≤ (writeAt a w.1 w.2).length := by
      intro u hu
      rw [hlen1]
      exact hin u (List.mem_cons_of_mem w hu)
    have hhead : ∀ u ∈ rest, wDisj w u := (List.pairwise_cons.mp hpw).1
    have hpwr : rest.Pairwise wDisj := (List.pairwise_cons.mp hpw).2
    have hrec := ih (writeAt a w.1 w.2) hinr hpwr
    have hfold : (w :: rest).foldl (fun acc u => writeAt acc u.1 u.2) a
        = rest.foldl (fun acc u => writeAt acc u.1 u.2) (writeAt a w.1 w.2) := rfl
    rw [hfold]
    refine ⟨by rw [hrec.1, hlen1], ?_, ?_⟩
    · intro u hu
      rcases List.mem_cons.mp hu with h1 | h1
      · subst h1
        rw [hrec.2.2 u.1 u.2.length (fun u2 hu2 => hhead u2 hu2)]
        exact readAt_writeAt_self a u.1 u.2 hw
      · exact hrec.2.1 u h1
    · intro o n2 hdisj
      rw [hrec.2.2 o n2 (fun u hu => hdisj u (List.mem_cons_of_mem w hu))]
      rcases hdisj w (List.mem_cons_self w rest) with h1 | h1
      · exact readAt_writeAt_before a o n2 w.1 w.2 hw h1
      · exact readAt_writeAt_after a o n2 w.1 w.2 hw h1

theorem readAt_middle (x y z : Bytes) : readAt ((x ++ y) ++ z) x.length y.length = y := by
  unfold readAt
  rw [List.append_assoc, List.drop_left, List.take_append_eq_append_take, List.take_length,
    Nat.sub_self, List.take_zero, List.append_nil]

theorem length_readAt (a : Bytes) (pos k : Nat) :
    (readAt a pos k).length = min k (a.length - pos) := by
  unfold readAt
  rw [List.length_take, List.length_drop]

theorem readAt_append_split (a : Bytes) (pos m k : Nat) :
    readAt a pos (m + k) = readAt a pos m ++ readAt a (pos + m) k := by
  unfold readAt
  rw [List.take_add, List.drop_drop]

/-- The chunked copy of `unpack_file_task` transfers exactly the requested
byte range when it lies within the archive. -/
theorem readChunks_eq (a : Bytes) :
    ∀ fuel pos remaining, remaining ≤ fuel → pos + remaining ≤ a.length →
      readChunks a fuel pos remaining = readAt a pos remaining := by
  intro fuel
  induction fuel with
  | zero =>
    intro pos remaining h1 _
    have : remaining = 0 := by omega
    subst this
    show ([] : Bytes) = readAt a pos 0
    unfold readAt
    rw [List.take_zero]
  | succ f ih =>
    intro pos remaining h1 h2
    by_cases h0 : remaining = 0
    · subst h0
      show ([] : Bytes) = readAt a pos 0
      unfold readAt
      rw [List.take_zero]
    · have hm1 : 1 ≤ min remaining BUFSZ := by
        unfold BUFSZ
        omega
      have hchunk : (readAt a pos (min remaining BUFSZ)).length = min remaining BUFSZ := by
        rw [length_readAt]
        omega
      rw [readChunks, if_neg h0, hchunk,
        ih (pos + min remaining BUFSZ) (remaining - min remaining BUFSZ) (by omega) (by omega)]
      rw [show remaining = min remaining BUFSZ + (remaining - min remaining BUFSZ) by omega,
        readAt_append_split]
      rw [show min (min remaining BUFSZ + (remaining - min remaining BUFSZ)) BUFSZ
        = min remaining BUFSZ by omega, Nat.add_sub_cancel_left]

theorem unpack_file_task_eq (a : Bytes) (off len : Nat) (h : off + len ≤ a.length) :
    unpack_file_task a off len = readAt a off len :=
  readChunks_eq a (len + 1) off len (by omega) h

theorem encodeU32List_append (l1 l2 : List Nat) :
    encodeU32List (l1 ++ l2) = encodeU32List l1 ++ encodeU32List l2 := by
  induction l1 with
  | nil => rfl
  | cons x rest ih =>
    show encodeU32 x ++ encodeU32List (rest ++ l2)
        = (encodeU32 x ++ encodeU32List rest) ++ encodeU32List l2
    rw [ih, List.append_assoc]

/-- The tuples that `struct.unpack('<IIII', ...)` recovers from the
serialized file table. -/
def ftTuples : List FEntry → List Nat → List (Nat × Nat × Nat × Nat)
  | e :: er, s :: sr => (e.file_name_offset, e.dir_name_offset, s, e.size) :: ftTuples er sr
  | _, _ => []

theorem readFTable_encode (entries : List FEntry) :
    ∀ (starts : List Nat) (P R : Bytes), entries.length = starts.length →
      (∀ e ∈ entries, e.file_name_offset < 4294967296 ∧ e.dir_name_offset < 4294967296
        ∧ e.size < 4294967296) →
      (∀ s ∈ starts, s < 4294967296) →
      readFTable (P ++ (encodeU32List (ftableFields entries starts) ++ R)) P.length
          entries.length
        = some (ftTuples entries starts) := by
  induction entries with
  | nil => intro starts P R _ _ _; rfl
  | cons e er ih =>
    intro starts P R hlen hbe hbs
    match starts with
    | s :: sr =>
      have hfields : ftableFields (e :: er) (s :: sr)
          = [e.file_name_offset, e.dir_name_offset, s, e.size] ++ ftableFields er sr := rfl
      have hsplit : P ++ (encodeU32List (ftableFields (e :: er) (s :: sr)) ++ R)
          = P ++ (encodeU32List [e.file_name_offset, e.dir_name_offset, s, e.size]
              ++ (encodeU32List (ftableFields er sr) ++ R)) := by
        rw [hfields, encodeU32List_append]
        simp [List.append_assoc]
      have hlen4 : (P ++ encodeU32List [e.file_name_offset, e.dir_name_offset, s, e.size]).length
          = P.length + 16 := by
        rw [List.length_append, length_encodeU32List]
        rfl
      have hbe1 := hbe e (List.mem_cons_self e er)
      have hbs1 := hbs s (List.mem_cons_self s sr)
      have hlenfull : (P ++ (encodeU32List [e.file_name_offset, e.dir_name_offset, s, e.size]
          ++ (encodeU32List (ftableFields er sr) ++ R))).length
            = P.length + 16 + ((encodeU32List (ftableFields er sr)).length + R.length) := by
        rw [List.length_append, List.length_append, List.length_append]
        rw [show (encodeU32List [e.file_name_offset, e.dir_name_offset, s, e.size]).length = 16
          from by rw [length_encodeU32List]; rfl]
        omega
      have hrec := ih sr (P ++ encodeU32List [e.file_name_offset, e.dir_name_offset, s, e.size])
        R (by simpa using hlen) (fun e2 h2 => hbe e2 (List.mem_cons_of_mem e h2))
        (fun s2 h2 => hbs s2 (List.mem_cons_of_mem s h2))
      rw [hlen4, List.append_assoc] at hrec
      have hf := readU32_encodeU32List [e.file_name_offset, e.dir_name_offset, s, e.size]
      have h0 := hf P (encodeU32List (ftableFields er sr) ++ R) 0 (by simp)
      have h1 := hf P (encodeU32List (ftableFields er sr) ++ R) 1 (by simp)
      have h2 := hf P (encodeU32List (ftableFields er sr) ++ R) 2 (by simp)
      have h3 := hf P (encodeU32List (ftableFields er sr) ++ R) 3 (by simp)
      rw [Nat.mul_zero, Nat.add_zero] at h0
      norm_num at h0 h1 h2 h3
      rw [Nat.mod_eq_of_lt hbe1.1] at h0
      rw [Nat.mod_eq_of_lt hbe1.2.1] at h1
      rw [Nat.mod_eq_of_lt hbs1] at h2
      rw [Nat.mod_eq_of_lt hbe1.2.2] at h3
      show readFTable _ P.length (er.length + 1) = _
      rw [hsplit, readFTable, if_pos (by rw [hlenfull]; omega), hrec, h0, h1, h2, h3]
      rfl

theorem buildLoop_length (files : List PFile) :
    ∀ st ste, (buildLoop st ste files).1.length = files.length := by
  induction files with
  | nil => intro st ste; rfl
  | cons f rest ih =>
    intro st ste
    show (_ :: (buildLoop _ _ rest).1).length = _
    rw [List.length_cons, ih, List.length_cons]

theorem buildLoop_sizes (files : List PFile) :
    ∀ st ste, (buildLoop st ste files).1.map (·.size) = files.map (·.content.length) := by
  induction files with
  | nil => intro st ste; rfl
  | cons f rest ih =>
    intro st ste
    show FEntry.size _ :: ((buildLoop _ _ rest).1.map (·.size)) = _
    rw [ih]
    rfl

theorem steBump_le (st : InternState) (ste : Nat) (f : PFile) :
    steBump st ste f ≤ ste + 2 := by
  simp only [steBump]
  split_ifs <;> omega

theorem buildLoop_ste_le (files : List PFile) :
    ∀ st ste, (buildLoop st ste files).2.2 ≤ ste + 2 * files.length := by
  induction files with
  | nil => intro st ste; simp [buildLoop]
  | cons f rest ih =>
    intro st ste
    show (buildLoop _ (steBump st ste f) rest).2.2 ≤ _
    have h1 := ih (add_string_to_table (add_string_to_table st f.dir).2 f.name).2
      (steBump st ste f)
    have h2 := steBump_le st ste f
    rw [List.length_cons]
    omega

theorem getD_map_lt (f : PFile → Nat) (l : List PFile) :
    ∀ i, i < l.length → (l.map f).getD i 0 = f (l.getD i noFile) := by
  induction l with
  | nil => intro i hi; cases hi
  | cons x rest ih =>
    intro i hi
    match i with
    | 0 => rfl
    | i2 + 1 =>
      show ((rest.map f).getD i2 0) = f (rest.getD i2 noFile)
      exact ih i2 (by simp at hi; omega)

/-- When every entry's two string references decode, the task list of
`unpack_cdfs` is one task per entry in table order. -/
theorem unpackTasksLoop_eq (a st : Bytes) (fso ss : Nat) (l : List (Nat × Nat × Nat × Nat))
    (h : ∀ t ∈ l, (unpack_string_from_table st t.1).isSome
          ∧ (unpack_string_from_table st t.2.1).isSome) :
    unpackTasksLoop a st fso ss l = some (l.map fun t =>
      (destPath ((unpack_string_from_table st t.2.1).getD [])
          ((unpack_string_from_table st t.1).getD []),
       unpack_file_task a (fso + t.2.2.1 * ss) t.2.2.2)) := by
  induction l with
  | nil => rfl
  | cons t rest ih =>
    obtain ⟨fOff, dOff, start, len⟩ := t
    have ht := h _ (List.mem_cons_self _ _)
    rcases Option.isSome_iff_exists.mp ht.1 with ⟨name, hname⟩
    rcases Option.isSome_iff_exists.mp ht.2 with ⟨dir, hdir⟩
    rw [unpackTasksLoop, hname, hdir, ih (fun t2 h2 => h t2 (List.mem_cons_of_mem _ h2))]
    simp [hname, hdir]

theorem filterMap_path_nil (tasks : List (Bytes × Bytes)) (p : Bytes)
    (h : ∀ t ∈ tasks, t.1 ≠ p) :
    tasks.filterMap (fun t => if t.1 = p then some t.2 else none) = [] := by
  induction tasks with
  | nil => rfl
  | cons t rest ih =>
    rw [List.filterMap_cons, if_neg (h t (List.mem_cons_self t rest))]
    exact ih fun t2 h2 => h t2 (List.mem_cons_of_mem t h2)

/-- With pairwise-distinct destination paths, the filesystem left behind by
the unpack tasks holds each task's bytes at its path. -/
theorem finalFS_getD (tasks : List (Bytes × Bytes)) :
    ∀ i, i < tasks.length → (tasks.map Prod.fst).Nodup →
      finalFS tasks (tasks.getD i ([], [])).1 = some (tasks.getD i ([], [])).2 := by
  induction tasks with
  | nil => intro i hi _; cases hi
  | cons t rest ih =>
    intro i hi hnodup
    rw [List.map_cons, List.nodup_cons] at hnodup
    match i with
    | 0 =>
      show finalFS (t :: rest) t.1 = some t.2
      unfold finalFS
      rw [List.filterMap_cons, if_pos rfl,
        filterMap_path_nil rest t.1 (fun t2 h2 hp => hnodup.1 (hp ▸ List.mem_map_of_mem _ h2))]
      rfl
    | i2 + 1 =>
      have hi2 : i2 < rest.length := by simp at hi; omega
      have hne : t.1 ≠ (rest.getD i2 ([], [])).1 := by
        intro hp
        apply hnodup.1
        rw [hp]
        apply List.mem_map_of_mem
        rw [List.getD_eq_getElem rest _ hi2]
        exact List.getElem_mem hi2
      show finalFS (t :: rest) (rest.getD i2 ([], [])).1 = some (rest.getD i2 ([], [])).2
      unfold finalFS
      rw [List.filterMap_cons, if_neg hne]
      exact ih i2 hi2 hnodup.2

/-- The write request of payload task `i`. -/
def packWrite (files : List PFile) (ss i : Nat) : Nat × Bytes :=
  (packFso files ss + (packStarts files ss).getD i 0 * ss,
   (files.getD i noFile).content
     ++ zeros ((ss - (files.getD i noFile).content.length % ss) % ss))

theorem pack_cdfs_ordered_eq_fold (files : List PFile) (ss cache : Nat) (order : List Nat) :
    pack_cdfs_ordered files ss cache order
      = (order.map (packWrite files ss)).foldl (fun acc w => writeAt acc w.1 w.2)
          (packBase files ss cache) := by
  unfold pack_cdfs_ordered packWrite packTaskWrite
  rw [List.foldl_map]

theorem tableOfEntries_ends (es : List Bytes) (h : es ≠ []) :
    ∃ U, tableOfEntries es = U ++ [0] := by
  induction es with
  | nil => exact absurd rfl h
  | cons e rest ih =>
    cases rest with
    | nil => exact ⟨e, rfl⟩
    | cons e2 r2 =>
      rcases ih (by simp) with ⟨U, hU⟩
      refine ⟨e ++ 0 :: U, ?_⟩
      show e ++ 0 :: tableOfEntries (e2 :: r2) = (e ++ 0 :: U) ++ [0]
      rw [hU]
      simp

theorem append_ends_zero (X T : Bytes) (pad : Nat) (hT : ∃ U, T = U ++ [0]) :
    ∃ Q, X ++ T ++ zeros pad = Q ++ [0] := by
  cases pad with
  | zero =>
    rcases hT with ⟨U, hU⟩
    exact ⟨X ++ U, by rw [hU]; simp [zeros, List.append_assoc]⟩
  | succ k =>
    exact ⟨X ++ T ++ zeros k, by rw [← zeros_append_zero k]; simp [List.append_assoc]⟩

theorem packPreamble_ends (files : List PFile) (ss cache : Nat) (es : List Bytes)
    (hes : es ≠ []) (htbl : (packState files).table = tableOfEntries es) :
    ∃ Q, packPreamble files ss cache = Q ++ [0] := by
  rcases tableOfEntries_ends es hes with ⟨U, hU⟩
  unfold packPreamble
  exact append_ends_zero _ _ _ ⟨U, by rw [htbl, hU]⟩

theorem readAt_take (a : Bytes) (o k1 k2 : Nat) (h : k1 ≤ k2) :
    (readAt a o k2).take k1 = readAt a o k1 := by
  unfold readAt
  rw [List.take_take]
  congr 1
  omega

theorem ftTuples_length (entries : List FEntry) :
    ∀ starts : List Nat, entries.length = starts.length →
      (ftTuples entries starts).length = entries.length := by
  induction entries with
  | nil => intro starts _; rfl
  | cons e er ih =>
    intro starts hlen
    match starts with
    | s :: sr =>
      show (ftTuples er sr).length + 1 = er.length + 1
      rw [ih sr (by simpa using hlen)]

theorem ftTuples_getD (entries : List FEntry) :
    ∀ (starts : List Nat) (i : Nat), entries.length = starts.length → i < entries.length →
      (ftTuples entries starts).getD i (0, 0, 0, 0)
        = ((entries.getD i noFEntry).file_name_offset, (entries.getD i noFEntry).dir_name_offset,
           starts.getD i 0, (entries.getD i noFEntry).size) := by
  induction entries with
  | nil => intro starts i _ hi; cases hi
  | cons e er ih =>
    intro starts i hlen hi
    match starts, i with
    | s :: sr, 0 => rfl
    | s :: sr, i2 + 1 =>
      show (ftTuples er sr).getD i2 (0, 0, 0, 0) = _
      exact ih sr i2 (by simpa using hlen) (by simp at hi; omega)

theorem list_ext_getD {α : Type} (l1 l2 : List α) (d : α) (hlen : l1.length = l2.length)
    (h : ∀ i, i < l1.length → l1.getD i d = l2.getD i d) : l1 = l2 := by
  apply List.ext_getElem hlen
  intro i h1 h2
  have := h i h1
  rwa [List.getD_eq_getElem l1 d h1, List.getD_eq_getElem l2 d h2] at this

theorem packStarts_getD (files : List PFile) (ss : Nat) (i : Nat) (hi : i < files.length) :
    (packStarts files ss).getD i 0
      = (((files.map (·.content.length)).take i).map (fun s => sectorsNeeded s ss)).sum := by
  unfold packStarts
  have hsz : (packEntries files).map (·.size) = files.map (·.content.length) := by
    unfold packEntries buildTables
    exact buildLoop_sizes files initInternState 1
  rw [hsz, assign_sectors_getD ss (files.map (·.content.length)) 0 i (by simpa using hi),
    Nat.zero_add]

theorem packTotal_eq (files : List PFile) (ss : Nat) :
    packTotal files ss = ((files.map (·.content.length)).map (fun s => sectorsNeeded s ss)).sum := by
  unfold packTotal
  have hsz : (packEntries files).map (·.size) = files.map (·.content.length) := by
    unfold packEntries buildTables
    exact buildLoop_sizes files initInternState 1
  rw [hsz, assign_sectors_total, Nat.zero_add]

/-- Start plus needed sectors of entry `i` never exceeds the total. -/
theorem packStarts_add_needed_le (files : List PFile) (ss : Nat) (i : Nat)
    (hi : i < files.length) :
    (packStarts files ss).getD i 0 + sectorsNeeded (files.getD i noFile).content.length ss
      ≤ packTotal files ss := by
  rw [packStarts_getD files ss i hi, packTotal_eq]
  have hlen : (files.map (·.content.length)).length = files.length := by simp
  have hsucc := sum_map_take_succ (fun s => sectorsNeeded s ss) (files.map (·.content.length)) i
    (by omega)
  have hg : (files.map (·.content.length)).getD i 0 = (files.getD i noFile).content.length :=
    getD_map_lt _ files i hi
  have hmono := sum_map_take_mono (fun s => sectorsNeeded s ss) (files.map (·.content.length))
    (i + 1) (files.map (·.content.length)).length (by omega)
  rw [List.take_length] at hmono
  rw [hg] at hsucc
  have hb : (fun s => sectorsNeeded s ss) (files.getD i noFile).content.length
      = sectorsNeeded (files.getD i noFile).content.length ss := rfl
  rw [hb] at hsucc
  omega

/-- Ordering of the assigned sector ranges: entry `i`'s range ends before
entry `j`'s begins whenever `i < j`. -/
theorem packStarts_mono (files : List PFile) (ss : Nat) (i j : Nat)
    (hi : i < files.length) (hj : j < files.length) (hij : i < j) :
    (packStarts files ss).getD i 0 + sectorsNeeded (files.getD i noFile).content.length ss
      ≤ (packStarts files ss).getD j 0 := by
  rw [packStarts_getD files ss i hi, packStarts_getD files ss j hj]
  have hg : (files.map (·.content.length)).getD i 0 = (files.getD i noFile).content.length :=
    getD_map_lt _ files i hi
  have hsucc := sum_map_take_succ (fun s => sectorsNeeded s ss) (files.map (·.content.length)) i
    (by simp; omega)
  have hmono := sum_map_take_mono (fun s => sectorsNeeded s ss) (files.map (·.content.length))
    (i + 1) j (by omega)
  rw [hg] at hsucc
  have hb : (fun s => sectorsNeeded s ss) (files.getD i noFile).content.length
      = sectorsNeeded (files.getD i noFile).content.length ss := rfl
  rw [hb] at hsucc
  omega

theorem packWrite_data_length (files : List PFile) (ss i : Nat) (hss : 0 < ss) :
    (packWrite files ss i).2.length
      = sectorsNeeded (files.getD i noFile).content.length ss * ss := by
  unfold packWrite zeros
  rw [List.length_append, List.length_replicate]
  exact content_plus_padding (files.getD i noFile).content.length ss hss

theorem packWrite_in_bounds (files : List PFile) (ss i : Nat) (hss : 0 < ss)
    (hi : i < files.length) :
    (packWrite files ss i).1 + (packWrite files ss i).2.length
      ≤ packFso files ss + packTotal files ss * ss := by
  rw [packWrite_data_length files ss i hss]
  show packFso files ss + (packStarts files ss).getD i 0 * ss + _ ≤ _
  have h1 := packStarts_add_needed_le files ss i hi
  have h2 : ((packStarts files ss).getD i 0
      + sectorsNeeded (files.getD i noFile).content.length ss) * ss ≤ packTotal files ss * ss :=
    Nat.mul_le_mul_right ss h1
  rw [Nat.add_mul] at h2
  omega

theorem packWrite_disjoint (files : List PFile) (ss i j : Nat) (hss : 0 < ss)
    (hi : i < files.length) (hj : j < files.length) (hij : i ≠ j) :
    wDisj (packWrite files ss i) (packWrite files ss j) := by
  rcases Nat.lt_or_ge i j with h | h
  · left
    rw [packWrite_data_length files ss i hss]
    show packFso files ss + (packStarts files ss).getD i 0 * ss + _
      ≤ packFso files ss + (packStarts files ss).getD j 0 * ss
    have h1 := packStarts_mono files ss i j hi hj h
    have h2 := Nat.mul_le_mul_right ss h1
    rw [Nat.add_mul] at h2
    omega
  · right
    have hji : j < i := by omega
    rw [packWrite_data_length files ss j hss]
    show packFso files ss + (packStarts files ss).getD j 0 * ss + _
      ≤ packFso files ss + (packStarts files ss).getD i 0 * ss
    have h1 := packStarts_mono files ss j i hj hi hji
    have h2 := Nat.mul_le_mul_right ss h1
    rw [Nat.add_mul] at h2
    omega


theorem getD_map_general {α β : Type} (f : α → β) (l : List α) (d : α) (d2 : β) :
    ∀ i, i < l.length → (l.map f).getD i d2 = f (l.getD i d) := by
  induction l with
  | nil => intro i hi; cases hi
  | cons x rest ih =>
    intro i hi
    match i with
    | 0 => rfl
    | i2 + 1 =>
      show ((rest.map f).getD i2 d2) = f (rest.getD i2 d)
      exact ih i2 (by simp at hi; omega)

theorem pack_unpack_main (files : List PFile) (ss cache : Nat)
    (hss : 0 < ss) (hss32 : ss < 4294967296) (_hcache : cache < 4294967296)
    (hnz : ∀ f ∈ files, 0 ∉ f.dir ∧ 0 ∉ f.name ∧ utf8Valid f.dir = true ∧ utf8Valid f.name = true)
    (hsize : packFso files ss + packTotal files ss * ss < 4294967296)
    (hpaths : (files.map fun f => destPath (upperBytes f.dir) (upperBytes f.name)).Nodup) :
    cdfsRoundTrip files ss cache := by
  -- Stage 1: string table and file table facts
  have hnz2 : ∀ f ∈ files, 0 ∉ f.dir ∧ 0 ∉ f.name := fun f hf => ⟨(hnz f hf).1, (hnz f hf).2.1⟩
  obtain ⟨es2, hInv0, hflen0, hoffs0⟩ := buildLoop_spec files initInternState 1 [[]] TableInv_init hnz2
  have hInv : TableInv (packState files) ([[]] ++ es2) := hInv0
  have hflen : (packEntries files).length = files.length := hflen0
  have hoffs : ∀ i, i < files.length →
      entryOffset ([[]] ++ es2) (upperBytes ((files.getD i noFile).dir))
        = some (((packEntries files).getD i noFEntry).dir_name_offset)
      ∧ entryOffset ([[]] ++ es2) (upperBytes ((files.getD i noFile).name))
        = some (((packEntries files).getD i noFEntry).file_name_offset)
      ∧ ((packEntries files).getD i noFEntry).size = (files.getD i noFile).content.length :=
    hoffs0
  have htbl : (packState files).table = tableOfEntries ([[]] ++ es2) := hInv.htable
  have hesne : ([[]] ++ es2 : List Bytes) ≠ [] := by simp
  -- Stage 2: geometry
  have hfso_spec := roundUpSector_spec
    (40 + (packEntries files).length * 16 + (packState files).table.length) ss hss
  have hfso_def : packFso files ss = roundUpSector
      (40 + (packEntries files).length * 16 + (packState files).table.length) ss := rfl
  have hraw_le : 40 + (packEntries files).length * 16 + (packState files).table.length
      ≤ packFso files ss := by rw [hfso_def]; exact hfso_spec.2.1
  have hbase := packBase_eq files ss cache hss (packPreamble_ends files ss cache _ hesne htbl)
  have hpre_len := length_packPreamble files ss cache hss
  have hbase_len : (packBase files ss cache).length
      = packFso files ss + packTotal files ss * ss := by
    rw [hbase, List.length_append, hpre_len]
    simp [zeros]
  -- Stage 3: the payload fold
  have hA_def : pack_cdfs files ss cache
      = ((List.range files.length).map (packWrite files ss)).foldl
          (fun acc w => writeAt acc w.1 w.2) (packBase files ss cache) :=
    pack_cdfs_ordered_eq_fold files ss cache (List.range files.length)
  have hin : ∀ w ∈ (List.range files.length).map (packWrite files ss),
      w.1 + w.2.length ≤ (packBase files ss cache).length := by
    intro w hw
    rcases List.mem_map.mp hw with ⟨i, hi, hwi⟩
    rw [hbase_len, ← hwi]
    exact packWrite_in_bounds files ss i hss (List.mem_range.mp hi)
  have hpw : ((List.range files.length).map (packWrite files ss)).Pairwise wDisj := by
    rw [List.pairwise_map]
    apply List.Pairwise.imp_of_mem ?_ (List.pairwise_lt_range files.length)
    intro i j hi hj hij
    exact packWrite_disjoint files ss i j hss (List.mem_range.mp hi) (List.mem_range.mp hj)
      (by omega)
  have hfold := foldl_writeAt_spec ((List.range files.length).map (packWrite files ss))
    (packBase files ss cache) hin hpw
  have hA_len : (pack_cdfs files ss cache).length
      = packFso files ss + packTotal files ss * ss := by
    rw [hA_def, hfold.1, hbase_len]
  -- Stage 4: the preamble is untouched by the payload writes
  have htakefso : readAt (pack_cdfs files ss cache) 0 (packFso files ss)
      = packPreamble files ss cache := by
    rw [hA_def, hfold.2.2 0 (packFso files ss) ?_]
    · rw [hbase]
      have h := readAt_middle [] (packPreamble files ss cache)
        (zeros (packTotal files ss * ss))
      simp only [List.nil_append, List.length_nil] at h
      rw [← hpre_len]
      exact h
    · intro w hw
      rcases List.mem_map.mp hw with ⟨i, _, hwi⟩
      left
      rw [← hwi]
      show 0 + packFso files ss ≤ packFso files ss + _
      omega
  have hsplitA : pack_cdfs files ss cache
      = packPreamble files ss cache ++ (pack_cdfs files ss cache).drop (packFso files ss) := by
    have h1 : (pack_cdfs files ss cache).take (packFso files ss)
        = packPreamble files ss cache := by
      rw [← htakefso]
      unfold readAt
      rw [List.drop_zero]
    rw [← h1]
    exact (List.take_append_drop _ _).symm
  -- Stage 5: header fields read back from the archive
  have hhd : pack_cdfs files ss cache
      = encodeU32List [CDFS_MAGIC, CDFS_VERSION, ss, cache, packFso files ss,
          packTotal files ss, (packEntries files).length * 16, (packEntries files).length,
          (packState files).table.length, packSte files]
        ++ (encodeU32List (ftableFields (packEntries files) (packStarts files ss))
          ++ ((packState files).table
            ++ (zeros (packFso files ss - (40 + (packEntries files).length * 16
                  + (packState files).table.length))
              ++ (pack_cdfs files ss cache).drop (packFso files ss)))) := by
    conv_lhs => rw [hsplitA]
    unfold packPreamble encodeHeader
    simp [List.append_assoc]
  have hfield : ∀ i v, i < 10 →
      ([CDFS_MAGIC, CDFS_VERSION, ss, cache, packFso files ss, packTotal files ss,
        (packEntries files).length * 16, (packEntries files).length,
        (packState files).table.length, packSte files].getD i 0) = v →
      readU32 (pack_cdfs files ss cache) (4 * i) = v % 4294967296 := by
    intro i v hi hv
    have h := readU32_encodeU32List [CDFS_MAGIC, CDFS_VERSION, ss, cache, packFso files ss,
        packTotal files ss, (packEntries files).length * 16, (packEntries files).length,
        (packState files).table.length, packSte files] []
      (encodeU32List (ftableFields (packEntries files) (packStarts files ss))
        ++ ((packState files).table
          ++ (zeros (packFso files ss - (40 + (packEntries files).length * 16
                + (packState files).table.length))
            ++ (pack_cdfs files ss cache).drop (packFso files ss)))) i (by simp; omega)
    simp only [List.nil_append, List.length_nil, Nat.zero_add] at h
    rw [← hhd] at h
    rw [h, hv]
  have hmagic : readU32 (pack_cdfs files ss cache) 0 = CDFS_MAGIC := by
    have h := hfield 0 CDFS_MAGIC (by omega) rfl
    rw [Nat.mul_zero] at h
    rw [h]
    decide
  have hssf : readU32 (pack_cdfs files ss cache) 8 = ss := by
    have h := hfield 2 ss (by omega) rfl
    rw [show (4 * 2 : Nat) = 8 from rfl] at h
    rw [h, Nat.mod_eq_of_lt hss32]
  have hfsof : readU32 (pack_cdfs files ss cache) 16 = packFso files ss := by
    have h := hfield 4 (packFso files ss) (by omega) rfl
    rw [show (4 * 4 : Nat) = 16 from rfl] at h
    rw [h, Nat.mod_eq_of_lt (by omega)]
  have hftnf : readU32 (pack_cdfs files ss cache) 28 = (packEntries files).length := by
    have h := hfield 7 ((packEntries files).length) (by omega) rfl
    rw [show (4 * 7 : Nat) = 28 from rfl] at h
    rw [h, Nat.mod_eq_of_lt (by omega)]
  have hstlenf : readU32 (pack_cdfs files ss cache) 32 = (packState files).table.length := by
    have h := hfield 8 ((packState files).table.length) (by omega) rfl
    rw [show (4 * 8 : Nat) = 32 from rfl] at h
    rw [h, Nat.mod_eq_of_lt (by omega)]
  -- Stage 6: the file table reads back
  have hbe : ∀ e ∈ packEntries files, e.file_name_offset < 4294967296
      ∧ e.dir_name_offset < 4294967296 ∧ e.size < 4294967296 := by
    intro e he
    rcases List.mem_iff_getElem.mp he with ⟨i, hilt, hie⟩
    have hi : i < files.length := by omega
    have hgd : (packEntries files).getD i noFEntry = e := by
      rw [List.getD_eq_getElem _ _ hilt, hie]
    have ho := hoffs i hi
    rw [hgd] at ho
    have h1 := entryOffset_lt_length _ _ _ ho.1
    have h2 := entryOffset_lt_length _ _ _ ho.2.1
    rw [← htbl] at h1 h2
    refine ⟨by omega, by omega, ?_⟩
    rw [ho.2.2]
    have h3 := size_le_sectorsNeeded (files.getD i noFile).content.length ss hss
    have h4 := packStarts_add_needed_le files ss i hi
    have h5 : sectorsNeeded (files.getD i noFile).content.length ss * ss
        ≤ packTotal files ss * ss := Nat.mul_le_mul_right ss (by omega)
    omega
  have hbs : ∀ s ∈ packStarts files ss, s < 4294967296 := by
    intro s hs
    rcases List.mem_iff_getElem.mp hs with ⟨i, hilt, his⟩
    have hi : i < files.length := by
      have := length_packStarts files ss
      omega
    have hgd : (packStarts files ss).getD i 0 = s := by
      rw [List.getD_eq_getElem _ _ hilt, his]
    have h4 := packStarts_add_needed_le files ss i hi
    have h6 : packTotal files ss ≤ packTotal files ss * ss := Nat.le_mul_of_pos_right _ hss
    omega
  have hsplit2 : pack_cdfs files ss cache
      = encodeHeader CDFS_MAGIC CDFS_VERSION ss cache (packFso files ss) (packTotal files ss)
          ((packEntries files).length * 16) (packEntries files).length
          (packState files).table.length (packSte files)
        ++ (encodeU32List (ftableFields (packEntries files) (packStarts files ss))
          ++ ((packState files).table
            ++ (zeros (packFso files ss - (40 + (packEntries files).length * 16
                  + (packState files).table.length))
              ++ (pack_cdfs files ss cache).drop (packFso files ss)))) := by
    conv_lhs => rw [hsplitA]
    unfold packPreamble
    simp [List.append_assoc]
  have hft : readFTable (pack_cdfs files ss cache) 40 (packEntries files).length
      = some (ftTuples (packEntries files) (packStarts files ss)) := by
    have h := readFTable_encode (packEntries files) (packStarts files ss)
      (encodeHeader CDFS_MAGIC CDFS_VERSION ss cache (packFso files ss) (packTotal files ss)
        ((packEntries files).length * 16) (packEntries files).length
        (packState files).table.length (packSte files))
      ((packState files).table
        ++ (zeros (packFso files ss - (40 + (packEntries files).length * 16
              + (packState files).table.length))
          ++ (pack_cdfs files ss cache).drop (packFso files ss)))
      (length_packStarts files ss).symm hbe hbs
    rw [length_encodeHeader] at h
    rw [hsplit2]
    exact h
  -- Stage 7: the string table reads back
  have hstr : readAt (pack_cdfs files ss cache) (40 + 16 * (packEntries files).length)
      (packState files).table.length = tableOfEntries ([[]] ++ es2) := by
    have hXlen : (encodeHeader CDFS_MAGIC CDFS_VERSION ss cache (packFso files ss)
        (packTotal files ss) ((packEntries files).length * 16) (packEntries files).length
        (packState files).table.length (packSte files)
          ++ encodeU32List (ftableFields (packEntries files) (packStarts files ss))).length
        = 40 + 16 * (packEntries files).length := by
      rw [List.length_append, length_encodeHeader, length_encodeU32List,
        ftableFields_length _ _ (length_packStarts files ss).symm]
      omega
    have hsplit3 : pack_cdfs files ss cache
        = ((encodeHeader CDFS_MAGIC CDFS_VERSION ss cache (packFso files ss)
            (packTotal files ss) ((packEntries files).length * 16) (packEntries files).length
            (packState files).table.length (packSte files)
              ++ encodeU32List (ftableFields (packEntries files) (packStarts files ss)))
            ++ (packState files).table)
          ++ (zeros (packFso files ss - (40 + (packEntries files).length * 16
                + (packState files).table.length))
            ++ (pack_cdfs files ss cache).drop (packFso files ss)) := by
      conv_lhs => rw [hsplitA]
      unfold packPreamble
      simp [List.append_assoc]
    rw [hsplit3, ← hXlen, readAt_middle]
    exact htbl
  -- Stage 8: the per-entry string lookups succeed
  have hlen_t : (ftTuples (packEntries files) (packStarts files ss)).length = files.length := by
    rw [ftTuples_length _ _ (length_packStarts files ss).symm, hflen]
  have hlook : ∀ i, i < files.length →
      unpack_string_from_table (tableOfEntries ([[]] ++ es2))
          (((packEntries files).getD i noFEntry).file_name_offset)
        = some (upperBytes (files.getD i noFile).name)
      ∧ unpack_string_from_table (tableOfEntries ([[]] ++ es2))
          (((packEntries files).getD i noFEntry).dir_name_offset)
        = some (upperBytes (files.getD i noFile).dir) := by
    intro i hi
    have ho := hoffs i hi
    have hfmem : files.getD i noFile ∈ files := by
      rw [List.getD_eq_getElem _ _ hi]
      exact List.getElem_mem hi
    have hnzi := hnz _ hfmem
    constructor
    · apply lookup_entryOffset _ _ _ hInv.hnull ho.2.1
      show utf8Valid (upperBytes (files.getD i noFile).name) = true
      rw [utf8Valid_upperBytes]
      exact hnzi.2.2.2
    · apply lookup_entryOffset _ _ _ hInv.hnull ho.1
      show utf8Valid (upperBytes (files.getD i noFile).dir) = true
      rw [utf8Valid_upperBytes]
      exact hnzi.2.2.1
  have htup : ∀ i, i < files.length →
      (ftTuples (packEntries files) (packStarts files ss)).getD i (0, 0, 0, 0)
        = (((packEntries files).getD i noFEntry).file_name_offset,
           ((packEntries files).getD i noFEntry).dir_name_offset,
           (packStarts files ss).getD i 0,
           ((packEntries files).getD i noFEntry).size) := by
    intro i hi
    exact ftTuples_getD (packEntries files) (packStarts files ss) i
      (length_packStarts files ss).symm (by omega)
  have hsome : ∀ t ∈ ftTuples (packEntries files) (packStarts files ss),
      (unpack_string_from_table (tableOfEntries ([[]] ++ es2)) t.1).isSome = true
      ∧ (unpack_string_from_table (tableOfEntries ([[]] ++ es2)) t.2.1).isSome = true := by
    intro t ht
    rcases List.mem_iff_getElem.mp ht with ⟨i, hilt, hit⟩
    have hi : i < files.length := by rw [hlen_t] at hilt; omega
    have hgd : (ftTuples (packEntries files) (packStarts files ss)).getD i (0, 0, 0, 0) = t := by
      rw [List.getD_eq_getElem _ _ hilt, hit]
    rw [htup i hi] at hgd
    have hl := hlook i hi
    rw [← hgd]
    constructor
    · show (unpack_string_from_table _
        ((packEntries files).getD i noFEntry).file_name_offset).isSome = true
      rw [hl.1]
      rfl
    · show (unpack_string_from_table _
        ((packEntries files).getD i noFEntry).dir_name_offset).isSome = true
      rw [hl.2]
      rfl
  have hunpack : unpack_cdfs (pack_cdfs files ss cache)
      = UnpackOutcome.ok ((ftTuples (packEntries files) (packStarts files ss)).map fun t =>
          (destPath
             ((unpack_string_from_table (tableOfEntries ([[]] ++ es2)) t.2.1).getD [])
             ((unpack_string_from_table (tableOfEntries ([[]] ++ es2)) t.1).getD []),
           unpack_file_task (pack_cdfs files ss cache)
             (packFso files ss + t.2.2.1 * ss) t.2.2.2)) := by
    unfold unpack_cdfs
    rw [if_neg (show ¬ ((pack_cdfs files ss cache).length < 40) by rw [hA_len]; omega)]
    rw [hmagic, if_neg (by decide), if_neg (by simp), hftnf, hft, hssf, hfsof, hstlenf, hstr]
    have hloop := unpackTasksLoop_eq (pack_cdfs files ss cache) (tableOfEntries ([[]] ++ es2))
      (packFso files ss) ss (ftTuples (packEntries files) (packStarts files ss)) hsome
    simp only []
    rw [hloop]
  -- Stage 9: each task writes the original content at the upper-cased path
  have hcontent : ∀ i, i < files.length →
      unpack_file_task (pack_cdfs files ss cache)
          (packFso files ss + (packStarts files ss).getD i 0 * ss)
          ((packEntries files).getD i noFEntry).size
        = (files.getD i noFile).content := by
    intro i hi
    have hsz := (hoffs i hi).2.2
    have hneed := packStarts_add_needed_le files ss i hi
    have h3 := size_le_sectorsNeeded (files.getD i noFile).content.length ss hss
    have hmul : ((packStarts files ss).getD i 0
        + sectorsNeeded ((files.getD i noFile).content.length) ss) * ss
          ≤ packTotal files ss * ss := Nat.mul_le_mul_right ss hneed
    rw [Nat.add_mul] at hmul
    have hib : packFso files ss + (packStarts files ss).getD i 0 * ss
        + ((packEntries files).getD i noFEntry).size
        ≤ (pack_cdfs files ss cache).length := by
      rw [hA_len, hsz]
      omega
    rw [unpack_file_task_eq _ _ _ hib, hsz]
    have hread := hfold.2.1 (packWrite files ss i)
      (List.mem_map_of_mem _ (List.mem_range.mpr hi))
    rw [← hA_def] at hread
    have hdl := packWrite_data_length files ss i hss
    have htk := readAt_take (pack_cdfs files ss cache)
      (packFso files ss + (packStarts files ss).getD i 0 * ss)
      ((files.getD i noFile).content.length)
      (sectorsNeeded ((files.getD i noFile).content.length) ss * ss) (by omega)
    rw [← htk,
      show readAt (pack_cdfs files ss cache)
          (packFso files ss + (packStarts files ss).getD i 0 * ss)
          (sectorsNeeded ((files.getD i noFile).content.length) ss * ss)
        = (packWrite files ss i).2 from by rw [← hdl]; exact hread]
    show ((files.getD i noFile).content ++ zeros _).take (files.getD i noFile).content.length = _
    rw [List.take_left]
  have htask : ∀ i, i < files.length →
      ((ftTuples (packEntries files) (packStarts files ss)).map fun t =>
          (destPath
             ((unpack_string_from_table (tableOfEntries ([[]] ++ es2)) t.2.1).getD [])
             ((unpack_string_from_table (tableOfEntries ([[]] ++ es2)) t.1).getD []),
           unpack_file_task (pack_cdfs files ss cache)
             (packFso files ss + t.2.2.1 * ss) t.2.2.2)).getD i ([], [])
        = (destPath (upperBytes (files.getD i noFile).dir)
            (upperBytes (files.getD i noFile).name),
           (files.getD i noFile).content) := by
    intro i hi
    rw [getD_map_general _ _ (0, 0, 0, 0) ([], []) i (by rw [hlen_t]; omega), htup i hi]
    have hl := hlook i hi
    show (destPath
        ((unpack_string_from_table (tableOfEntries ([[]] ++ es2))
          ((packEntries files).getD i noFEntry).dir_name_offset).getD [])
        ((unpack_string_from_table (tableOfEntries ([[]] ++ es2))
          ((packEntries files).getD i noFEntry).file_name_offset).getD []),
       unpack_file_task (pack_cdfs files ss cache)
         (packFso files ss + (packStarts files ss).getD i 0 * ss)
         ((packEntries files).getD i noFEntry).size) = _
    rw [hl.1, hl.2, hcontent i hi]
    rfl
  -- Stage 10: the destination paths are exactly the upper-cased source paths
  have hmapfst : (((ftTuples (packEntries files) (packStarts files ss)).map fun t =>
          (destPath
             ((unpack_string_from_table (tableOfEntries ([[]] ++ es2)) t.2.1).getD [])
             ((unpack_string_from_table (tableOfEntries ([[]] ++ es2)) t.1).getD []),
           unpack_file_task (pack_cdfs files ss cache)
             (packFso files ss + t.2.2.1 * ss) t.2.2.2)).map Prod.fst)
        = files.map (fun f => destPath (upperBytes f.dir) (upperBytes f.name)) := by
    apply list_ext_getD _ _ []
    · simp [hlen_t]
    · intro i hilt
      have hi : i < files.length := by
        simp [hlen_t] at hilt
        exact hilt
      rw [getD_map_general Prod.fst _ ([], []) [] i (by simp [hlen_t]; omega),
        htask i hi,
        getD_map_general (fun f => destPath (upperBytes f.dir) (upperBytes f.name))
          files noFile [] i hi]
  have hnodupT : ((((ftTuples (packEntries files) (packStarts files ss)).map fun t =>
          (destPath
             ((unpack_string_from_table (tableOfEntries ([[]] ++ es2)) t.2.1).getD [])
             ((unpack_string_from_table (tableOfEntries ([[]] ++ es2)) t.1).getD []),
           unpack_file_task (pack_cdfs files ss cache)
             (packFso files ss + t.2.2.1 * ss) t.2.2.2)).map Prod.fst)).Nodup := by
    rw [hmapfst]
    exact hpaths
  -- Stage 11: conclusion
  intro f hf
  rcases List.mem_iff_getElem.mp hf with ⟨i, hilt, hif⟩
  have hfeq : files.getD i noFile = f := by
    rw [List.getD_eq_getElem _ _ hilt, hif]
  unfold unpackFS
  rw [hunpack]
  have hfin := finalFS_getD ((ftTuples (packEntries files) (packStarts files ss)).map fun t =>
      (destPath
         ((unpack_string_from_table (tableOfEntries ([[]] ++ es2)) t.2.1).getD [])
         ((unpack_string_from_table (tableOfEntries ([[]] ++ es2)) t.1).getD []),
       unpack_file_task (pack_cdfs files ss cache)
         (packFso files ss + t.2.2.1 * ss) t.2.2.2)) i
    (by simp [hlen_t]; omega) hnodupT
  rw [htask i hilt] at hfin
  rw [← hfeq]
  exact hfin

/-! ### The fan-out completion loops and their failure policy -/

/-- The effect of the I/O a pack payload task attempts: either the bytes it
read from the source file (the archive write then succeeds), or the message
`str(e)` of the exception raised somewhere inside the `try` block. -/
inductive PackTaskAct where
  | ok (data : Bytes)
  | err (msg : Bytes)
deriving DecidableEq

/-- `process_file_task` (lines 158-174) as seen by the completion loop: on
success it returns `(idx, len(file_data), file_info['path'])`; any exception
is caught at the task boundary and turned into `(idx, 0, str(e))`. -/
def process_file_task (idx : Nat) (path : Bytes) (act : PackTaskAct) : Nat × Nat × Bytes :=
  match act with
  | PackTaskAct.ok data => (idx, data.length, path)
  | PackTaskAct.err e => (idx, 0, e)

/-- The pack completion loop (lines 284-295): each task result is collected;
one whose third component fails the `os.path.exists` test (modelled by `ex`)
is reported as `Error packing file idx: path` — for a failed task that
component is the exception text rather than a path.  No result stops the
loop. -/
def packCollect (ex : Bytes → Bool) : List (Nat × Nat × Bytes) → List (Nat × Bytes)
  | [] => []
  | (idx, _, path) :: rest =>
    if ex path then packCollect ex rest else (idx, path) :: packCollect ex rest

/-- Lines 276-298 of `pack_cdfs`: run every submitted payload task through
`process_file_task`, collect all results, and return `True` unconditionally
(line 298).  The first component is the list of error reports printed. -/
def packFanout (ex : Bytes → Bool) (tasks : List (Nat × Bytes × PackTaskAct)) :
    List (Nat × Bytes) × Bool :=
  (packCollect ex (tasks.map (fun t => process_file_task t.1 t.2.1 t.2.2)), true)

/-- The unpack completion loop (lines 121-133): each submitted task is the
pair of its path and the exception its `future.result()` re-raises, if any;
a raising task is reported as `Error unpacking path: exc` and the loop
continues with the next future. -/
def unpackCollect : List (Bytes × Option Bytes) → List (Bytes × Bytes)
  | [] => []
  | (_, none) :: rest => unpackCollect rest
  | (p, some e) :: rest => (p, e) :: unpackCollect rest

/-- Lines 104-133 of `unpack_cdfs`: collect every task's outcome, then
return `True` unconditionally (line 133). -/
def unpackFanout (outcomes : List (Bytes × Option Bytes)) : List (Bytes × Bytes) × Bool :=
  (unpackCollect outcomes, true)

/-! ### The dedup scan visits only entry starts -/

/-- The byte offsets at which the entries of an entry list begin inside
`tableOfEntries`. -/
def entryStarts : List Bytes → List Nat
  | [] => []
  | e :: rest => 0 :: (entryStarts rest).map (· + (e.length + 1))

/-- The table indexes at which the dedup scan of `add_string_to_table`
evaluates its match test, in order: exactly the indexes at which the guard
of line 144 holds during the run. -/
def scanVisits (t v : Bytes) : Nat → Nat → List Nat
  | 0, _ => []
  | fuel + 1, index =>
    if index < t.length - v.length then
      index ::
        (if (t.drop index).take v.length = v ∧ byteAt t (index + v.length) = 0 then []
         else scanVisits t v fuel (index + distNull t index + 1))
    else []

/-- Over a well-formed table, every index the dedup scan tests is the start
offset of an entry (cf. `scanLoop_entries`). -/
theorem scanVisits_entries (v : Bytes) (suf : List Bytes) :
    ∀ (pre : List Bytes) (fuel : Nat), suf.length < fuel →
      (∀ e ∈ suf, 0 ∉ e) →
      ∀ idx ∈ scanVisits (tableOfEntries (pre ++ suf)) v fuel (tableOfEntries pre).length,
        idx ∈ (entryStarts suf).map (· + (tableOfEntries pre).length) := by
  induction suf with
  | nil =>
    intro pre fuel hfuel _
    match fuel, hfuel with
    | f + 1, _ =>
      intro idx hidx
      rw [scanVisits, List.append_nil,
        if_neg (show ¬ ((tableOfEntries pre).length
          < (tableOfEntries pre).length - v.length) by omega)] at hidx
      cases hidx
  | cons e rest ih =>
    intro pre fuel hfuel hnull
    match fuel, hfuel with
    | f + 1, hfu =>
      intro idx hidx
      have he : 0 ∉ e := hnull e (List.mem_cons_self e rest)
      have hrestnull : ∀ e2 ∈ rest, 0 ∉ e2 := fun e2 h2 => hnull e2 (List.mem_cons_of_mem e h2)
      have hT : tableOfEntries (pre ++ e :: rest)
          = tableOfEntries pre ++ (e ++ 0 :: tableOfEntries rest) := by
        rw [tableOfEntries_append]
        rfl
      rw [hT, scanVisits] at hidx
      by_cases hg : (tableOfEntries pre).length
          < (tableOfEntries pre ++ (e ++ 0 :: tableOfEntries rest)).length - v.length
      · rw [if_pos hg] at hidx
        rcases List.mem_cons.mp hidx with h0 | h1
        · subst h0
          refine List.mem_map.mpr ⟨0, ?_,
            by show (0 : Nat) + (tableOfEntries pre).length = (tableOfEntries pre).length; omega⟩
          show (0 : Nat) ∈ 0 :: _
          exact List.mem_cons_self 0 _
        · by_cases hc : ((tableOfEntries pre ++ (e ++ 0 :: tableOfEntries rest)).drop
              (tableOfEntries pre).length).take v.length = v
            ∧ byteAt (tableOfEntries pre ++ (e ++ 0 :: tableOfEntries rest))
                ((tableOfEntries pre).length + v.length) = 0
          · rw [if_pos hc] at h1
            cases h1
          · rw [if_neg hc] at h1
            have hdist : distNull (tableOfEntries pre ++ (e ++ 0 :: tableOfEntries rest))
                (tableOfEntries pre).length = e.length := by
              unfold distNull
              rw [scanToNull_entry (tableOfEntries pre) e (tableOfEntries rest) he]
            rw [hdist] at h1
            have hTT : tableOfEntries ((pre ++ [e]) ++ rest)
                = tableOfEntries (pre ++ e :: rest) := by
              congr 1
              simp
            have hidx2 : (tableOfEntries (pre ++ [e])).length
                = (tableOfEntries pre).length + (e.length + 1) := by
              rw [tableOfEntries_append]
              simp [length_tableOfEntries_cons, tableOfEntries]
            have hrec := ih (pre ++ [e]) f
              (by simp only [List.length_cons] at hfu; omega) hrestnull idx
            rw [hTT, hidx2, hT] at hrec
            have hrec2 := hrec (by
              rw [show (tableOfEntries pre).length + (e.length + 1)
                = (tableOfEntries pre).length + e.length + 1 by omega]
              exact h1)
            rcases List.mem_map.mp hrec2 with ⟨s, hs, hval⟩
            have hval2 : s + ((tableOfEntries pre).length + (e.length + 1)) = idx := hval
            refine List.mem_map.mpr ⟨s + (e.length + 1), ?_, by
              show s + (e.length + 1) + (tableOfEntries pre).length = idx
              omega⟩
            show _ ∈ 0 :: (entryStarts rest).map (· + (e.length + 1))
            exact List.mem_cons_of_mem 0 (List.mem_map.mpr ⟨s, hs, rfl⟩)
      · rw [if_neg hg] at hidx
        cases hidx

/-! ### The length of the pre-extended output file -/

theorem length_packBase (files : List PFile) (ss cache : Nat) (h : 0 < ss) :
    (packBase files ss cache).length = packFso files ss + packTotal files ss * ss := by
  have hL := length_packPreamble files ss cache h
  have hfso : 40 ≤ packFso files ss := by
    have := (roundUpSector_spec
      (40 + (packEntries files).length * 16 + (packState files).table.length) ss h).2.1
    unfold packFso
    omega
  unfold packBase writeAt zeros
  simp [hL]
  omega

/-! ### Order invariance of the payload fold -/

/-- Folding the same pairwise-disjoint, in-bounds write set in two different
completion orders produces the same bytes. -/
theorem foldl_writeAt_perm (w1 w2 : List (Nat × Bytes)) (hp : w1.Perm w2) :
    ∀ a : Bytes, (∀ w ∈ w1, w.1 + w.2.length ≤ a.length) → w1.Pairwise wDisj →
      w1.foldl (fun acc w => writeAt acc w.1 w.2) a
        = w2.foldl (fun acc w => writeAt acc w.1 w.2) a := by
  induction hp with
  | nil => intro a _ _; rfl
  | cons x p ih =>
    intro a hin hpw
    rw [List.foldl_cons, List.foldl_cons]
    apply ih
    · intro w hw
      rw [length_writeAt a x.1 x.2 (hin x (List.mem_cons_self x _))]
      exact hin w (List.mem_cons_of_mem x hw)
    · exact hpw.of_cons
  | swap x y l =>
    intro a hin hpw
    rw [List.foldl_cons, List.foldl_cons, List.foldl_cons, List.foldl_cons]
    have hyx : wDisj y x := (List.pairwise_cons.mp hpw).1 x (List.mem_cons_self x l)
    have hyb : y.1 + y.2.length ≤ a.length := hin y (List.mem_cons_self y (x :: l))
    have hxb : x.1 + x.2.length ≤ a.length :=
      hin x (List.mem_cons_of_mem y (List.mem_cons_self x l))
    rw [writeAt_comm a y.1 x.1 y.2 x.2 hyb hxb hyx]
  | trans p1 p2 ih1 ih2 =>
    intro a hin hpw
    rw [ih1 a hin hpw]
    apply ih2
    · intro w hw
      exact hin w (p1.mem_iff.mpr hw)
    · exact (p1.pairwise_iff (fun hab => Or.symm hab)).mp hpw

/-! ### Shared helper lemmas and sample data for the claim theorems -/

/-- Encoding of the premise of the fan-out failure policy: a task that read
its source file successfully has an existing source path, while the
exception text of a failed task is not an existing path. -/
def actFate (ex : Bytes → Bool) (path : Bytes) : PackTaskAct → Bool
  | PackTaskAct.ok _ => ex path
  | PackTaskAct.err e => !(ex e)

/-- A small two-file tree used to instantiate the general theorems: `a` at
the root and `b.x` inside `sub`. -/
def sampleFiles : List PFile :=
  [⟨[], [97], [1, 2, 3]⟩, ⟨[115, 117, 98], [98, 46, 120], [9, 8, 7, 6, 5]⟩]

/-- A 40-byte header-only archive whose `first_sector_offset` (1) is neither
sector-aligned nor past the preamble, and whose `total_sectors` (5) extends
far beyond the file. -/
def c6BadArchive : Bytes := encodeHeader CDFS_MAGIC CDFS_VERSION 2048 0 1 5 0 0 0 0

theorem packCollect_reports (ex : Bytes → Bool) (tasks : List (Nat × Bytes × PackTaskAct))
    (hex : ∀ t ∈ tasks, actFate ex t.2.1 t.2.2 = true) :
    packCollect ex (tasks.map (fun t => process_file_task t.1 t.2.1 t.2.2))
      = tasks.filterMap (fun t => match t.2.2 with
          | PackTaskAct.err e => some (t.1, e)
          | PackTaskAct.ok _ => none) := by
  induction tasks with
  | nil => rfl
  | cons t rest ih =>
    obtain ⟨idx, path, act⟩ := t
    have h1 := hex _ (List.mem_cons_self _ _)
    have ihr := ih (fun t2 ht2 => hex t2 (List.mem_cons_of_mem _ ht2))
    cases act with
    | ok data =>
      simp only [actFate] at h1
      show packCollect ex ((idx, data.length, path) :: _) = _
      rw [packCollect, if_pos h1, List.filterMap_cons]
      exact ihr
    | err e =>
      simp only [actFate, Bool.not_eq_true'] at h1
      show packCollect ex ((idx, 0, e) :: _) = _
      rw [packCollect, if_neg (by rw [h1]; exact Bool.false_ne_true), List.filterMap_cons]
      rw [ihr]

theorem unpackCollect_reports (outcomes : List (Bytes × Option Bytes)) :
    unpackCollect outcomes = outcomes.filterMap (fun o => o.2.map (fun e => (o.1, e))) := by
  induction outcomes with
  | nil => rfl
  | cons o rest ih =>
    obtain ⟨p, r⟩ := o
    cases r with
    | none => rw [unpackCollect, List.filterMap_cons]; exact ih
    | some e => rw [unpackCollect, List.filterMap_cons]; rw [ih]; rfl

/-- Whatever byte follows a maximal `takeWhile` block falsifies the
predicate. -/
theorem getD_after_takeWhile (p : Nat → Bool) (l : Bytes) (d : Nat)
    (h : (l.takeWhile p).length < l.length) :
    p (l.getD (l.takeWhile p).length d) = false := by
  induction l with
  | nil => simp at h
  | cons x rest ih =>
    by_cases hx : p x
    · rw [List.takeWhile_cons, if_pos hx] at h ⊢
      rw [List.length_cons, List.getD_cons_succ]
      apply ih
      simp only [List.length_cons] at h
      omega
    · rw [List.takeWhile_cons, if_neg hx]
      rw [List.length_nil, List.getD_cons_zero]
      simpa using hx

/-- A duplicate-free list containing `a` holds it exactly once. -/
theorem countP_eq_one_of_nodup_mem {α : Type} [DecidableEq α] (l : List α) (a : α)
    (hnd : l.Nodup) (ha : a ∈ l) : l.countP (fun x => decide (x = a)) = 1 := by
  induction l with
  | nil => cases ha
  | cons x rest ih =>
    rw [List.countP_cons]
    rcases List.mem_cons.mp ha with h | h
    · subst h
      have hz : List.countP (fun y => decide (y = a)) rest = 0 := by
        rw [List.countP_eq_zero]
        intro y hy
        simp only [decide_eq_true_eq]
        intro hyx
        subst hyx
        exact (List.nodup_cons.mp hnd).1 hy
      rw [hz, if_pos (by simp)]
    · have hx : ¬ ((fun y => decide (y = a)) x = true) := by
        simp only [decide_eq_true_eq]
        intro hxa
        subst hxa
        exact (List.nodup_cons.mp hnd).1 h
      rw [ih (List.nodup_cons.mp hnd).2 h, if_neg hx]

/-! ### The claims -/

/-- C1: the round trip.  Packing a tree of ASCII-named files and unpacking
the archive recreates every file byte-for-byte at its upper-cased
destination path, provided the upper-cased destination paths are pairwise
distinct (plus the technical `u32` bounds `struct.pack` imposes and a
positive sector size).  The all-ASCII hypothesis restricts the statement to
the domain on which this embedding's `upperBytes` coincides with Python
`str.upper` (see `upperByte`); outside it the program's Unicode case map
creates further collisions (e.g. ß and ss both upper-case to SS) that the
model cannot see.  The distinctness proviso is necessary already within
ASCII: the unqualified claim is refuted by `c1_counterexample`, where two
names differing only in case collide after upper-casing and the later
payload wins. -/
theorem c1_pack_unpack_round_trip (files : List PFile) (ss cache : Nat)
    (hss : 0 < ss) (hss32 : ss < 4294967296) (hcache : cache < 4294967296)
    (hnz : ∀ f ∈ files, 0 ∉ f.dir ∧ 0 ∉ f.name)
    (hascii : ∀ f ∈ files, (∀ b ∈ f.dir, b ≤ 127) ∧ (∀ b ∈ f.name, b ≤ 127))
    (hsize : packFso files ss + packTotal files ss * ss < 4294967296)
    (hpaths : (files.map fun f => destPath (upperBytes f.dir) (upperBytes f.name)).Nodup) :
    cdfsRoundTrip files ss cache :=
  pack_unpack_main files ss cache hss hss32 hcache
    (fun f hf => ⟨(hnz f hf).1, (hnz f hf).2,
      utf8Valid_of_ascii f.dir (hascii f hf).1, utf8Valid_of_ascii f.name (hascii f hf).2⟩)
    hsize hpaths

/-- Witness: the two-file sample tree round-trips at sector size 4. -/
theorem c1_pack_unpack_round_trip_witness : cdfsRoundTrip sampleFiles 4 16 :=
  c1_pack_unpack_round_trip sampleFiles 4 16 (by decide) (by decide) (by decide) (by decide)
    (by decide) (by decide) (by decide)

/-- Counterexample to the unqualified C1: files `a` and `A` with different
contents both unpack to path `A`, so the tree is not reproduced (case is not
merely "not preserved" — distinct files can collide and lose data). -/
theorem c1_counterexample :
    ¬ cdfsRoundTrip [⟨[], [97], [1]⟩, ⟨[], [65], [2]⟩] 4 16 := by decide

/-- C2: the layout computation of lines 220-235.  `pack_layout` is the
planner run by `pack_cdfs`; `first_sector_offset` is the preamble size
(40-byte header, 16 bytes per entry, string table) rounded up to the next
multiple of the sector size; one entry exists per discovered file;
`start_sector` is assigned sequentially in discovery order starting at 0,
each entry advancing the cursor by `sectorsNeeded` = ceil(size/sector_size)
(characterized by the last conjunct); `total_sectors` is the running sum
after the last entry. -/
theorem c2_sector_layout (files : List PFile) (ss : Nat) (hss : 0 < ss) :
    pack_layout ((packEntries files).map (·.size)) (packState files).table.length ss
      = (packFso files ss, packStarts files ss, packTotal files ss)
    ∧ (ss ∣ packFso files ss
      ∧ 40 + (packEntries files).length * 16 + (packState files).table.length
          ≤ packFso files ss
      ∧ packFso files ss
          < 40 + (packEntries files).length * 16 + (packState files).table.length + ss)
    ∧ (packEntries files).length = files.length
    ∧ (packStarts files ss).length = files.length
    ∧ (∀ i, i < files.length →
        (packStarts files ss).getD i 0
          = (((files.map (·.content.length)).take i).map (fun s => sectorsNeeded s ss)).sum)
    ∧ packTotal files ss
        = ((files.map (·.content.length)).map (fun s => sectorsNeeded s ss)).sum
    ∧ ∀ sz : Nat, sz ≤ sectorsNeeded sz ss * ss ∧ sectorsNeeded sz ss * ss < sz + ss := by
  refine ⟨?_,
    roundUpSector_spec (40 + (packEntries files).length * 16
      + (packState files).table.length) ss hss,
    buildLoop_length files initInternState 1,
    (length_packStarts files ss).trans (buildLoop_length files initInternState 1),
    fun i hi => packStarts_getD files ss i hi,
    packTotal_eq files ss,
    fun sz => ⟨size_le_sectorsNeeded sz ss hss, ?_⟩⟩
  · unfold pack_layout packFso packStarts packTotal
    rw [List.length_map]
  · unfold sectorsNeeded
    have h := Nat.div_mul_le_self (sz + ss - 1) ss
    omega

/-- Witness: for the sample tree at sector size 4 the offset is
sector-aligned and the second entry starts after the first file's sectors. -/
theorem c2_sector_layout_witness :
    (0 : Nat) < 4 ∧ 4 ∣ packFso sampleFiles 4
      ∧ (packStarts sampleFiles 4).getD 1 0
          = (((sampleFiles.map (·.content.length)).take 1).map
              (fun s => sectorsNeeded s 4)).sum :=
  ⟨by decide, (c2_sector_layout sampleFiles 4 (by decide)).2.1.1,
    (c2_sector_layout sampleFiles 4 (by decide)).2.2.2.2.1 1 (by decide)⟩

/-- C3: the byte ranges the planner assigns to distinct entries — each
starting at `first_sector_offset + start_sector * sector_size` and spanning
`sectorsNeeded` whole sectors — are pairwise disjoint: no byte is inside
both, so the concurrent payload writers never touch a common byte. -/
theorem c3_payload_ranges_disjoint (files : List PFile) (ss i j : Nat) (hss : 0 < ss)
    (hi : i < files.length) (hj : j < files.length) (hij : i ≠ j) :
    ∀ b : Nat,
      ¬ ((packFso files ss + (packStarts files ss).getD i 0 * ss ≤ b
          ∧ b < packFso files ss + (packStarts files ss).getD i 0 * ss
              + sectorsNeeded (files.getD i noFile).content.length ss * ss)
        ∧ (packFso files ss + (packStarts files ss).getD j 0 * ss ≤ b
          ∧ b < packFso files ss + (packStarts files ss).getD j 0 * ss
              + sectorsNeeded (files.getD j noFile).content.length ss * ss)) := by
  intro b hb
  have hd := packWrite_disjoint files ss i j hss hi hj hij
  have hli := packWrite_data_length files ss i hss
  have hlj := packWrite_data_length files ss j hss
  unfold wDisj at hd
  rw [show (packWrite files ss i).1
      = packFso files ss + (packStarts files ss).getD i 0 * ss from rfl,
    show (packWrite files ss j).1
      = packFso files ss + (packStarts files ss).getD j 0 * ss from rfl,
    hli, hlj] at hd
  omega

/-- Witness: byte 86 of the sample archive cannot lie in both payload
ranges. -/
theorem c3_payload_ranges_disjoint_witness :
    (0 : Nat) < 4 ∧ (0 : Nat) ≠ 1
    ∧ ¬ ((packFso sampleFiles 4 + (packStarts sampleFiles 4).getD 0 0 * 4 ≤ 86
          ∧ 86 < packFso sampleFiles 4 + (packStarts sampleFiles 4).getD 0 0 * 4
              + sectorsNeeded (sampleFiles.getD 0 noFile).content.length 4 * 4)
        ∧ (packFso sampleFiles 4 + (packStarts sampleFiles 4).getD 1 0 * 4 ≤ 86
          ∧ 86 < packFso sampleFiles 4 + (packStarts sampleFiles 4).getD 1 0 * 4
              + sectorsNeeded (sampleFiles.getD 1 noFile).content.length 4 * 4)) :=
  ⟨by decide, by decide,
    c3_payload_ranges_disjoint sampleFiles 4 0 1 (by decide) (by decide) (by decide)
      (by decide) 86⟩

/-- C4: wrong magic.  `verify_cdfs` does reject a wrong magic gracefully
(returns false), and so does `unpack_cdfs` when the magic's big-endian bytes
happen to be ASCII — but line 61 decodes those bytes as ASCII *before* the
magic comparison of line 63, so for a magic with any byte above 127 the
unpack crashes with a `UnicodeDecodeError` instead of reporting the bad
magic and returning `False`.  Both behaviours are exhibited below on
40-byte headers with magics `0xFF` and `0x41`. -/
theorem c4_bad_magic_crash :
    unpack_cdfs (encodeHeader 255 1 2048 0 64 0 0 0 0 0)
        = UnpackOutcome.crash PyErr.unicodeDecodeError
    ∧ verify_cdfs (encodeHeader 255 1 2048 0 64 0 0 0 0 0) = false
    ∧ unpack_cdfs (encodeHeader 65 1 2048 0 64 0 0 0 0 0) = UnpackOutcome.failedFalse
    ∧ verify_cdfs (encodeHeader 65 1 2048 0 64 0 0 0 0 0) = false
    ∧ (255 : Nat) ≠ CDFS_MAGIC ∧ (65 : Nat) ≠ CDFS_MAGIC := by decide

/-- C5: the string-table lookup scans forward from `offset` to the first
null byte, the scanned bytes are a null-free contiguous slice of the table
terminated by a null whenever the scan stops inside the table, and the
lookup returns exactly those bytes when they decode as UTF-8 and fails
(UnicodeDecodeError, `none`) exactly when they do not.  An out-of-bounds
offset is *not* an error: the scan sees the empty byte string and the
lookup returns the empty string (`c5_counterexample`). -/
theorem c5_string_lookup (t : Bytes) (off : Nat) :
    (∀ b ∈ scanToNull t off, b ≠ 0)
    ∧ scanToNull t off = (t.drop off).take (scanToNull t off).length
    ∧ (off + (scanToNull t off).length < t.length →
        t.getD (off + (scanToNull t off).length) 0 = 0)
    ∧ (utf8Valid (scanToNull t off) = true →
        unpack_string_from_table t off = some (scanToNull t off))
    ∧ (utf8Valid (scanToNull t off) = false → unpack_string_from_table t off = none)
    ∧ (t.length ≤ off → unpack_string_from_table t off = some []) := by
  refine ⟨?_, ?_, ?_, ?_, ?_, ?_⟩
  · intro b hb
    have h := List.mem_takeWhile_imp hb
    simpa using h
  · show (t.drop off).takeWhile (fun b => b != 0) = _
    exact List.prefix_iff_eq_take.mp (List.takeWhile_prefix _)
  · intro h
    have hlt : ((t.drop off).takeWhile (fun b => b != 0)).length < (t.drop off).length := by
      rw [List.length_drop]
      show (scanToNull t off).length < _
      omega
    have h2 := getD_after_takeWhile (fun b => b != 0) (t.drop off) 0 hlt
    have h3 : (t.drop off).getD (scanToNull t off).length 0 = 0 := by simpa using h2
    rw [List.getD_eq_getElem?_getD, List.getElem?_drop] at h3
    rw [List.getD_eq_getElem?_getD]
    exact h3
  · intro h
    unfold unpack_string_from_table
    rw [if_pos h]
  · intro h
    unfold unpack_string_from_table
    rw [if_neg (by rw [h]; exact Bool.false_ne_true)]
  · intro h
    have hdrop : t.drop off = [] := List.drop_of_length_le h
    unfold unpack_string_from_table scanToNull
    rw [hdrop]
    rfl

/-- Witness: the lookup of a valid two-byte UTF-8 entry returns exactly its
bytes; the trailing `200` after the null is never scanned. -/
theorem c5_string_lookup_witness :
    unpack_string_from_table [195, 169, 0, 200] 0 = some [195, 169] := by
  have h := (c5_string_lookup [195, 169, 0, 200] 0).2.2.2.1 (by decide)
  rw [show scanToNull [195, 169, 0, 200] 0 = [195, 169] from by decide] at h
  exact h

/-- Counterexample to C5 as stated: offset 5 is far outside the two-byte
table, yet the lookup succeeds with the empty string instead of failing —
Python slicing beyond the end yields an empty byte string, which decodes
fine. -/
theorem c5_counterexample :
    ([65, 0] : Bytes).length ≤ 5 ∧ unpack_string_from_table [65, 0] 5 = some [] := by decide

/-- C6: what `verify_cdfs` actually accepts, as an exact characterization:
file at least 40 bytes, magic correct, `first_sector_offset ≤ size`, the
file-table length equation, a complete file table and string table, and per
entry the payload-extent bound, in-range string offsets and decodable
strings.  Alignment of `first_sector_offset`, the preamble lower bound, and
the `total_sectors` bound of §3 are *not* among the checks —
`c6_counterexample` exhibits an accepted archive violating all three. -/
theorem c6_verify_checks (a : Bytes) :
    verify_cdfs a = true ↔
      40 ≤ a.length ∧ readU32 a 0 = CDFS_MAGIC ∧ readU32 a 16 ≤ a.length
      ∧ readU32 a 28 * 16 = readU32 a 24
      ∧ ∃ entries, readFTable a 40 (readU32 a 28) = some entries
          ∧ readU32 a 32 ≤ a.length - (40 + 16 * readU32 a 28)
          ∧ ∀ t ∈ entries,
              readU32 a 16 + t.2.2.1 * readU32 a 8 + t.2.2.2 ≤ a.length
              ∧ t.1 < readU32 a 32 ∧ t.2.1 < readU32 a 32
              ∧ unpack_string_from_table
                  (readAt a (40 + 16 * readU32 a 28) (readU32 a 32)) t.1 ≠ none
              ∧ unpack_string_from_table
                  (readAt a (40 + 16 * readU32 a 28) (readU32 a 32)) t.2.1 ≠ none := by
  constructor
  · intro hv
    unfold verify_cdfs at hv
    by_cases h1 : a.length < 40
    · rw [if_pos h1] at hv; cases hv
    rw [if_neg h1] at hv
    by_cases h2 : readU32 a 0 ≠ CDFS_MAGIC
    · rw [if_pos h2] at hv; cases hv
    rw [if_neg h2] at hv
    by_cases h3 : readU32 a 16 > a.length
    · rw [if_pos h3] at hv; cases hv
    rw [if_neg h3] at hv
    by_cases h4 : readU32 a 28 * 16 ≠ readU32 a 24
    · rw [if_pos h4] at hv; cases hv
    rw [if_neg h4] at hv
    cases hft : readFTable a 40 (readU32 a 28) with
    | none => rw [hft] at hv; cases hv
    | some entries =>
      rw [hft] at hv
      simp only [] at hv
      by_cases h5 : (readAt a (40 + 16 * readU32 a 28) (readU32 a 32)).length < readU32 a 32
      · rw [if_pos h5] at hv; cases hv
      rw [if_neg h5] at hv
      rw [length_readAt] at h5
      refine ⟨by omega, not_not.mp h2, by omega, not_not.mp h4, entries, rfl, by omega, ?_⟩
      intro t ht
      have h6 := List.all_eq_true.mp hv t ht
      simp only [Bool.and_eq_true, decide_eq_true_eq, Option.isSome_iff_ne_none] at h6
      exact ⟨h6.1.1.1.1, h6.1.1.1.2, h6.1.1.2, h6.1.2, h6.2⟩
  · rintro ⟨h1, h2, h3, h4, entries, hft, h5, hall⟩
    unfold verify_cdfs
    rw [if_neg (by omega), if_neg (by simp [h2]), if_neg (by omega), if_neg (by simp [h4]),
      hft]
    simp only []
    rw [if_neg (by rw [length_readAt]; omega), List.all_eq_true]
    intro t ht
    have h6 := hall t ht
    simp only [Bool.and_eq_true, decide_eq_true_eq, Option.isSome_iff_ne_none]
    exact ⟨⟨⟨⟨h6.1, h6.2.1⟩, h6.2.2.1⟩, h6.2.2.2.1⟩, h6.2.2.2.2⟩

/-- Witness: the characterization accepts the header-only archive through
its right-to-left direction (with an empty file table). -/
theorem c6_verify_checks_witness : verify_cdfs c6BadArchive = true :=
  (c6_verify_checks c6BadArchive).mpr
    ⟨by decide, by decide, by decide, by decide, [], by decide, by decide, by decide⟩

/-- Counterexample to C6 as stated: `verify_cdfs` accepts `c6BadArchive`
although its `first_sector_offset` (read at byte 16) is not a multiple of
its `sector_size` (byte 8), is below the header+tables size, and its
`total_sectors` (byte 20) times `sector_size` plus the offset exceeds the
40-byte file: the verifier does not cross-check these §3 invariants. -/
theorem c6_counterexample :
    verify_cdfs c6BadArchive = true
    ∧ ¬ (readU32 c6BadArchive 8 ∣ readU32 c6BadArchive 16)
    ∧ readU32 c6BadArchive 16 < 40 + readU32 c6BadArchive 24 + readU32 c6BadArchive 32
    ∧ c6BadArchive.length
        < readU32 c6BadArchive 20 * readU32 c6BadArchive 8 + readU32 c6BadArchive 16 := by
  decide

/-- C7: the fan-out failure policy.  Given the per-task effects (`ok` with
the bytes read, or `err` with the exception text) and the premise that real
source paths exist while exception texts do not, the pack completion loop
reports exactly the failed tasks with their diagnostics, the unpack
completion loop reports exactly the raising tasks with their paths and
messages, no failure removes any sibling task from the collected lists, and
both operations still return `True`. -/
theorem c7_fanout_failure_policy (ex : Bytes → Bool)
    (tasks : List (Nat × Bytes × PackTaskAct)) (outcomes : List (Bytes × Option Bytes))
    (hex : ∀ t ∈ tasks, actFate ex t.2.1 t.2.2 = true) :
    (packFanout ex tasks).2 = true
    ∧ (unpackFanout outcomes).2 = true
    ∧ (packFanout ex tasks).1
        = tasks.filterMap (fun t => match t.2.2 with
            | PackTaskAct.err e => some (t.1, e)
            | PackTaskAct.ok _ => none)
    ∧ (unpackFanout outcomes).1
        = outcomes.filterMap (fun o => o.2.map (fun e => (o.1, e))) :=
  ⟨rfl, rfl, packCollect_reports ex tasks hex, unpackCollect_reports outcomes⟩

/-- Witness: one succeeding and one failing task on each side — the failing
pack task is reported as `(1, "E")`, the failing unpack task as
`("b", "E")`, and both operations return `True`. -/
theorem c7_fanout_failure_policy_witness :
    (packFanout (fun p => decide (p = [97]))
        [(0, [97], PackTaskAct.ok [1, 2]), (1, [98], PackTaskAct.err [69])]).2 = true
    ∧ (unpackFanout [([97], none), ([98], some [69])]).2 = true
    ∧ (packFanout (fun p => decide (p = [97]))
        [(0, [97], PackTaskAct.ok [1, 2]), (1, [98], PackTaskAct.err [69])]).1
        = [(0, ([97] : Bytes), PackTaskAct.ok [1, 2]),
            (1, [98], PackTaskAct.err [69])].filterMap (fun t => match t.2.2 with
            | PackTaskAct.err e => some (t.1, e)
            | PackTaskAct.ok _ => none)
    ∧ (unpackFanout [([97], none), ([98], some [69])]).1
        = [(([97] : Bytes), (none : Option Bytes)),
            ([98], some [69])].filterMap (fun o => o.2.map (fun e => (o.1, e))) :=
  c7_fanout_failure_policy (fun p => decide (p = [97]))
    [(0, [97], PackTaskAct.ok [1, 2]), (1, [98], PackTaskAct.err [69])]
    [([97], none), ([98], some [69])] (by decide)

/-- C8: directory dedup.  For every pack run whose files have null-free
all-ASCII path components, any directory value `d` occurring among the
files yields exactly one string-table entry holding its upper-cased bytes
(count 1 in the entry decomposition of the final table), and the file-table
records of *all* files with that directory carry that single entry's
offset.  The all-ASCII hypothesis restricts the run to the domain on which
`upperBytes` coincides with Python `str.upper` and the character counts of
the dedup scan (lines 144-146) equal the byte counts of the model (see
`upperByte` and `scanLoop`); it is not needed by the proof, only for the
statement to speak about the program. -/
theorem c8_directory_dedup (files : List PFile) (d : Bytes)
    (hnull : ∀ f ∈ files, 0 ∉ f.dir ∧ 0 ∉ f.name)
    (_hascii : ∀ f ∈ files, (∀ b ∈ f.dir, b ≤ 127) ∧ (∀ b ∈ f.name, b ≤ 127))
    (hd : d ∈ files.map (fun f => f.dir)) :
    ∃ es off, (packState files).table = tableOfEntries es
      ∧ es.countP (fun e => decide (e = upperBytes d)) = 1
      ∧ (packEntries files).length = files.length
      ∧ entryOffset es (upperBytes d) = some off
      ∧ ∀ i, i < files.length → (files.getD i noFile).dir = d →
          ((packEntries files).getD i noFEntry).dir_name_offset = off := by
  obtain ⟨es2, hInv, hlen, hoffs⟩ :=
    buildLoop_spec files initInternState 1 [[]] TableInv_init hnull
  rcases List.mem_map.mp hd with ⟨f, hf, hfd⟩
  rcases List.mem_iff_getElem.mp hf with ⟨j, hjlt, hjf⟩
  have hjd : (files.getD j noFile).dir = d := by
    rw [List.getD_eq_getElem files noFile hjlt, hjf, hfd]
  have hoffj := (hoffs j hjlt).1
  rw [hjd] at hoffj
  refine ⟨[[]] ++ es2, ((packEntries files).getD j noFEntry).dir_name_offset,
    hInv.htable, ?_, hlen, hoffj, ?_⟩
  · exact countP_eq_one_of_nodup_mem _ _ hInv.hnodup (entryOffset_mem _ _ _ hoffj)
  · intro i hilt hid
    have hoffi := (hoffs i hilt).1
    rw [hid, hoffj] at hoffi
    exact (Option.some.inj hoffi).symm

/-- Witness: two files in directory `d` share one table entry and one
offset. -/
theorem c8_directory_dedup_witness :
    ∃ es off,
      (packState [⟨[100], [97], []⟩, ⟨[100], [98], [5]⟩]).table = tableOfEntries es
      ∧ es.countP (fun e => decide (e = upperBytes [100])) = 1
      ∧ (packEntries [⟨[100], [97], []⟩, ⟨[100], [98], [5]⟩]).length = 2
      ∧ entryOffset es (upperBytes [100]) = some off
      ∧ ∀ i, i < 2 →
          (([⟨[100], [97], []⟩, ⟨[100], [98], [5]⟩] : List PFile).getD i noFile).dir = [100] →
          ((packEntries [⟨[100], [97], []⟩, ⟨[100], [98], [5]⟩]).getD
              i noFEntry).dir_name_offset = off :=
  c8_directory_dedup [⟨[100], [97], []⟩, ⟨[100], [98], [5]⟩] [100] (by decide) (by decide)
    (by decide)

/-- C9: schedule independence.  The archive bytes produced by the payload
fold are the same for every completion order of the payload tasks (any
permutation of the planned order), so the output is fully determined by the
tree, the walk order and the parameters: packing twice yields byte-identical
archives regardless of worker scheduling. -/
theorem c9_pack_schedule_independent (files : List PFile) (ss cache : Nat)
    (order : List Nat) (hss : 0 < ss) (hperm : order.Perm (List.range files.length)) :
    pack_cdfs_ordered files ss cache order = pack_cdfs files ss cache := by
  have hmemlt : ∀ i ∈ order, i < files.length := by
    intro i hi
    have h2 := hperm.mem_iff.mp hi
    simpa using h2
  unfold pack_cdfs
  rw [pack_cdfs_ordered_eq_fold, pack_cdfs_ordered_eq_fold]
  refine foldl_writeAt_perm (order.map (packWrite files ss))
    ((List.range files.length).map (packWrite files ss))
    (hperm.map (packWrite files ss)) (packBase files ss cache) ?_ ?_
  · intro w hw
    rcases List.mem_map.mp hw with ⟨i, hi, hwi⟩
    rw [← hwi, length_packBase files ss cache hss]
    exact packWrite_in_bounds files ss i hss (hmemlt i hi)
  · rw [List.pairwise_map]
    have hnd : order.Nodup := hperm.nodup_iff.mpr (List.nodup_range _)
    have hpw : order.Pairwise (fun i j => i ≠ j) := hnd
    refine List.Pairwise.imp_of_mem ?_ hpw
    intro i j hi hj hne
    exact packWrite_disjoint files ss i j hss (hmemlt i hi) (hmemlt j hj) hne

/-- Witness: completing the sample tree's two payload tasks in reverse
order produces the same archive as the planned order. -/
theorem c9_pack_schedule_independent_witness :
    pack_cdfs_ordered sampleFiles 4 16 [1, 0] = pack_cdfs sampleFiles 4 16 :=
  c9_pack_schedule_independent sampleFiles 4 16 [1, 0] (by decide) (by decide)

/-- C10: the intern/lookup contract.  Starting from the pre-seeded one-byte
table and empty cache, after interning any sequence of null-free all-ASCII
strings: the table is a null-terminated entry list, one offset is returned
per value, each returned offset is the exact start of an entry holding the
upper-cased input (so it is in bounds, with the terminating null inside the
table), `unpack_string_from_table` at that offset returns the upper-cased
input, and on the resulting table the dedup scan for any null-free
all-ASCII value only ever tests offsets that begin an entry — never
interior suffix positions.  The all-ASCII hypotheses restrict the statement
to the domain on which `upperBytes` coincides with Python `str.upper` and
the scan's `len(string_value)` character counts (lines 144-146) equal the
byte counts of the model (see `upperByte` and `scanLoop`). -/
theorem c10_intern_table (values : List Bytes)
    (hnz : ∀ v ∈ values, 0 ∉ v)
    (hascii : ∀ v ∈ values, ∀ b ∈ v, b ≤ 127) :
    ∃ es : List Bytes,
      (internAll initInternState values).2.table = tableOfEntries es
      ∧ (internAll initInternState values).1.length = values.length
      ∧ (∀ i, i < values.length →
          ∃ pre post : List Bytes,
            es = pre ++ upperBytes (values.getD i []) :: post
            ∧ (internAll initInternState values).1.getD i 0 = (tableOfEntries pre).length
            ∧ (internAll initInternState values).1.getD i 0
                + (upperBytes (values.getD i [])).length + 1
                ≤ (internAll initInternState values).2.table.length
            ∧ unpack_string_from_table (internAll initInternState values).2.table
                ((internAll initInternState values).1.getD i 0)
              = some (upperBytes (values.getD i [])))
      ∧ ∀ v : Bytes, 0 ∉ v → (∀ b ∈ v, b ≤ 127) →
          ∀ idx ∈ scanVisits (internAll initInternState values).2.table v
              ((internAll initInternState values).2.table.length + 1) 0,
            idx ∈ entryStarts es := by
  obtain ⟨es2, hInv, hlen, hoff⟩ :=
    internAll_spec values initInternState [[]] TableInv_init hnz
  refine ⟨[[]] ++ es2, hInv.htable, hlen, ?_, ?_⟩
  · intro i hi
    have hmem : values.getD i [] ∈ values := by
      rw [List.getD_eq_getElem values [] hi]
      exact List.getElem_mem hi
    have hoi := hoff i hi
    rcases entryOffset_decompose _ _ _ hoi with ⟨pre, post, hsplit, hpre⟩
    refine ⟨pre, post, hsplit, hpre.symm, ?_, ?_⟩
    · have hb := entryOffset_lt_length _ _ _ hoi
      rw [hInv.htable]
      omega
    · rw [hInv.htable]
      exact lookup_entryOffset _ _ _ hInv.hnull hoi
        (utf8Valid_of_ascii _ (upperBytes_ascii _ (hascii _ hmem)))
  · intro v hv0 _ idx hidx
    rw [hInv.htable] at hidx
    have hfu : ([[]] ++ es2 : List Bytes).length < (tableOfEntries ([[]] ++ es2)).length + 1 := by
      have h := entries_length_le_tableOfEntries ([[]] ++ es2)
      omega
    have h := scanVisits_entries v ([[]] ++ es2) [] ((tableOfEntries ([[]] ++ es2)).length + 1)
      hfu hInv.hnull idx hidx
    have h2 : idx ∈ (entryStarts ([[]] ++ es2)).map (fun s => s + 0) := h
    rcases List.mem_map.mp h2 with ⟨s, hs, hval⟩
    have hsi : s = idx := by
      have hval2 : s + 0 = idx := hval
      omega
    subst hsi
    exact hs

/-- Witness: interning `a`, `bc`, `a` yields three offsets into a
well-formed table with the stated entry structure and scan discipline. -/
theorem c10_intern_table_witness :
    ∃ es : List Bytes,
      (internAll initInternState [[97], [98, 99], [97]]).2.table = tableOfEntries es
      ∧ (internAll initInternState [[97], [98, 99], [97]]).1.length = 3
      ∧ (∀ i, i < 3 →
          ∃ pre post : List Bytes,
            es = pre ++ upperBytes (([[97], [98, 99], [97]] : List Bytes).getD i []) :: post
            ∧ (internAll initInternState [[97], [98, 99], [97]]).1.getD i 0
                = (tableOfEntries pre).length
            ∧ (internAll initInternState [[97], [98, 99], [97]]).1.getD i 0
                + (upperBytes (([[97], [98, 99], [97]] : List Bytes).getD i [])).length + 1
                ≤ (internAll initInternState [[97], [98, 99], [97]]).2.table.length
            ∧ unpack_string_from_table (internAll initInternState [[97], [98, 99], [97]]).2.table
                ((internAll initInternState [[97], [98, 99], [97]]).1.getD i 0)
              = some (upperBytes (([[97], [98, 99], [97]] : List Bytes).getD i [])))
      ∧ ∀ v : Bytes, 0 ∉ v → (∀ b ∈ v, b ≤ 127) →
          ∀ idx ∈ scanVisits (internAll initInternState [[97], [98, 99], [97]]).2.table v
              ((internAll initInternState [[97], [98, 99], [97]]).2.table.length + 1) 0,
            idx ∈ entryStarts es :=
  c10_intern_table [[97], [98, 99], [97]] (by decide) (by decide)

end CDFS
